import Mathlib

/-!
Shallow embedding of the repository's HTTP engine: the asynchronous client
(`src/firmware/modules/http_client.py`) and the server
(`src/modules/http_server.py`).

Bytes are modelled as `List Nat`.  A byte stream is modelled as the list of
bytes still to be delivered together with a read *schedule*: a list of
naturals deciding how many bytes each partial read yields.  A blocking
`read(n)` call delivers at least one byte (and at most `n`) whenever data
remains, which is exactly the contract of the transport's `read`.
-/

/-- ASCII bytes of a string literal. -/
def sb (s : String) : List Nat := s.toList.map Char.toNat

/-- Tests whether the second list starts with the first (Python `startswith`,
also the primitive used for substring search). -/
def isInit : List Nat → List Nat → Bool
  | [], _ => true
  | _ :: _, [] => false
  | a :: x, b :: y => a == b && isInit x y

/-- Index of the first occurrence of `pat` inside a list
(Python `bytes.find`). -/
def findSeq (pat : List Nat) : List Nat → Option Nat
  | [] => if isInit pat [] then some 0 else none
  | a :: rest =>
    if isInit pat (a :: rest) then some 0
    else (findSeq pat rest).map (· + 1)

/-- Python substring test `pat in l`. -/
def hasSub (pat l : List Nat) : Bool := (findSeq pat l).isSome

/-- Concatenation of a list of byte lists (Python `b"".join`). -/
def joinL : List (List Nat) → List Nat
  | [] => []
  | a :: r => a ++ joinL r

/-- Python ASCII whitespace, as used by `str.split()` and `str.strip()`. -/
def isWs (a : Nat) : Bool := a == 32 || a == 9 || a == 10 || a == 13 || a == 11 || a == 12

/-- Helper for `splitWs`: accumulates the current token in reverse. -/
def splitWsGo : List Nat → List Nat → List (List Nat)
  | cur, [] => if cur = [] then [] else [cur.reverse]
  | cur, a :: rest =>
    if isWs a then
      if cur = [] then splitWsGo [] rest else cur.reverse :: splitWsGo [] rest
    else splitWsGo (a :: cur) rest

/-- Python `str.split()` with no argument: split on whitespace runs,
discarding empty tokens. -/
def splitWs (l : List Nat) : List (List Nat) := splitWsGo [] l

/-- Python `str.strip()` restricted to ASCII whitespace. -/
def trimB (l : List Nat) : List Nat :=
  ((l.dropWhile isWs).reverse.dropWhile isWs).reverse

/-- Python `str.lower()` on ASCII letters. -/
def lowerB (l : List Nat) : List Nat :=
  l.map (fun a => if 65 ≤ a ∧ a ≤ 90 then a + 32 else a)

/-- Python `l.split(c, 1)`, splitting on the first occurrence of byte `c`;
when `c` is absent the whole list is the first component. -/
def splitFirst (c : Nat) : List Nat → (List Nat × List Nat)
  | [] => ([], [])
  | a :: rest =>
    if a = c then ([], rest)
    else
      let p := splitFirst c rest
      (a :: p.1, p.2)

/-- Python `l.split(c)` on a single byte separator. -/
def splitByte (c : Nat) : List Nat → List (List Nat)
  | [] => [[]]
  | a :: rest =>
    match splitByte c rest with
    | [] => [[]]
    | h :: t => if a = c then [] :: h :: t else (a :: h) :: t

/-- Python `"...".split("\r\n")`: split on the two-byte CRLF separator,
left to right, non-overlapping. -/
def splitCRLF : List Nat → List (List Nat)
  | [] => [[]]
  | 13 :: 10 :: rest => [] :: splitCRLF rest
  | a :: rest =>
    match splitCRLF rest with
    | [] => [[a]]
    | h :: t => (a :: h) :: t

/-- Last segment of `l.split(c)` (Python `l.split(c)[-1]`). -/
def lastSeg (c : Nat) (l : List Nat) : List Nat :=
  ((splitByte c l).getLast?).getD []

/-- Lookup in an insertion-ordered map with byte-list keys
(Python `dict.get`). -/
def dget {β : Type} (d : List (List Nat × β)) (k : List Nat) : Option β :=
  (d.find? (fun p => p.1 == k)).map (·.2)

/-- Update of an insertion-ordered map: overwrite in place if the key exists,
else append (Python `dict.__setitem__`). -/
def dset {β : Type} (d : List (List Nat × β)) (k : List Nat) (v : β) :
    List (List Nat × β) :=
  match d with
  | [] => [(k, v)]
  | p :: rest => if p.1 == k then (k, v) :: rest else p :: dset rest k v

/-- Python bytearray slice assignment `b[i:i+len(c)] = c`: replaces that slice
with `c`; writing past the end grows the buffer, exactly as in CPython. -/
def sliceAssign (b : List Nat) (i : Nat) (c : List Nat) : List Nat :=
  b.take i ++ c ++ b.drop (i + c.length)

/-- Decimal digit value of an ASCII byte. -/
def decDigit (c : Nat) : Option Nat :=
  if 48 ≤ c ∧ c ≤ 57 then some (c - 48) else none

/-- Helper for `parseDec`. -/
def parseDecCore (acc : Nat) : List Nat → Option Nat
  | [] => some acc
  | c :: rest =>
    match decDigit c with
    | none => none
    | some v => parseDecCore (10 * acc + v) rest

/-- Python `int(s)` on the digit strings the engine actually produces and
consumes (non-empty, all ASCII digits; signs and surrounding whitespace never
occur because header values are stripped first). -/
def parseDec (l : List Nat) : Option Nat :=
  if l = [] then none else parseDecCore 0 l

/-- Hexadecimal digit value of an ASCII byte (`0-9`, `a-f`, `A-F`). -/
def hexDigitVal (c : Nat) : Option Nat :=
  if 48 ≤ c ∧ c ≤ 57 then some (c - 48)
  else if 97 ≤ c ∧ c ≤ 102 then some (c - 87)
  else if 65 ≤ c ∧ c ≤ 70 then some (c - 55)
  else none

/-- Helper for `parseHex`. -/
def parseHexCore (acc : Nat) : List Nat → Option Nat
  | [] => some acc
  | c :: rest =>
    match hexDigitVal c with
    | none => none
    | some v => parseHexCore (16 * acc + v) rest

/-- Python `int(line, 16)` on the chunk-size lines the wire grammar produces
(non-empty hex digit strings). -/
def parseHex (l : List Nat) : Option Nat :=
  if l = [] then none else parseHexCore 0 l

/-- ASCII byte of one hexadecimal digit, lowercase as `"%x"` prints it. -/
def hexDigitB (n : Nat) : Nat := if n < 10 then 48 + n else 87 + n

/-- Hex digits of `n`, least significant first; the first argument is fuel
(`n` itself always suffices). -/
def toHexRev : Nat → Nat → List Nat
  | 0, _ => []
  | _, 0 => []
  | f + 1, n => hexDigitB (n % 16) :: toHexRev f (n / 16)

/-- Lowercase hexadecimal rendering of `n` with no leading zeros
(Python `"%x" % n`). -/
def toHex (n : Nat) : List Nat :=
  if n = 0 then [48] else (toHexRev n n).reverse

/-- ASCII decimal digits of `n`, least significant first (fuel-driven). -/
def natDecRev : Nat → Nat → List Nat
  | 0, _ => []
  | _, 0 => []
  | f + 1, n => (48 + n % 10) :: natDecRev f (n / 10)

/-- Decimal rendering of `n` (Python `str(n)` for a natural). -/
def natDec (n : Nat) : List Nat :=
  if n = 0 then [48] else (natDecRev n n).reverse

/-!
Client engine (`src/firmware/modules/http_client.py`).

A partial read `rread data sched n` models one `await reader.read(n)`:
it delivers `m` bytes where `m` is capped by the request size `n`, by the
schedule head, and by the data remaining, and is at least 1 while data
remains (a blocking stream read returns between 1 and `n` bytes, or empty
only at end of stream).
-/

/-- Error taxonomy of one client attempt.  `headerTooLarge` and
`bodyTooLarge` are the two `ValueError`s raised by `http_client`;
`intParse` stands for the `ValueError` of a failed `int(...)`;
`chunkEof` marks end of stream inside the chunked reader, where the source
would loop forever on empty reads; `fuel` marks exhausted modelling fuel
(never reached for adequate fuel); `net s` stands for a transport-level
exception (connect failure, reset, timeout) with message `s`. -/
inductive HErr
  | headerTooLarge
  | bodyTooLarge
  | intParse
  | chunkEof
  | fuel
  | net (s : String)
deriving DecidableEq

/-- Message text of an attempt error (Python `str(e)`). -/
def herrMsg : HErr → List Nat
  | .headerTooLarge => sb "Header too large"
  | .bodyTooLarge => sb "Body too large"
  | .intParse => sb "invalid literal for int()"
  | .chunkEof => sb "end of stream inside chunked body"
  | .fuel => sb "out of fuel"
  | .net s => sb s

/-- One partial read from the stream: returns the delivered bytes, the
remaining data and the remaining schedule. -/
def rread (data sched : List Nat) (n : Nat) : List Nat × List Nat × List Nat :=
  let k := match sched with
    | [] => n
    | k0 :: _ => max k0 1
  let m := min (min k n) data.length
  (data.take m, data.drop m, sched.drop 1)

/-- Header-reading loop of `http_client` (lines 61-70): accumulate 64-byte
reads until `\r\n\r\n` appears or the stream ends, raising
`Header too large` past 2048 bytes.  Fuel `data.length + 1` always
suffices since every read consumes at least one byte. -/
def readHeaderPhase : Nat → List Nat → List Nat → List Nat →
    Except HErr (List Nat × List Nat × List Nat)
  | 0, _, _, _ => .error .fuel
  | fuel + 1, hb, data, sched =>
    if hasSub (sb "\r\n\r\n") hb then .ok (hb, data, sched)
    else if data.isEmpty then .ok (hb, data, sched)
    else
      let r := rread data sched 64
      let hb2 := hb ++ r.1
      if 2048 < hb2.length then .error .headerTooLarge
      else readHeaderPhase fuel hb2 r.2.1 r.2.2

/-- Loop `while b"\r\n" not in buffer: buffer.extend(await reader.read(64))`
of the chunked reader (lines 98-99).  On end of stream the source would
loop forever on empty reads; that divergence is modelled as `chunkEof`. -/
def fillUntilCRLF : Nat → List Nat → List Nat → List Nat →
    Except HErr (List Nat × List Nat × List Nat)
  | 0, _, _, _ => .error .fuel
  | fuel + 1, buf, data, sched =>
    if hasSub [13, 10] buf then .ok (buf, data, sched)
    else if data.isEmpty then .error .chunkEof
    else
      let r := rread data sched 64
      fillUntilCRLF fuel (buf ++ r.1) r.2.1 r.2.2

/-- Loop `while len(buffer) < size + 2: buffer.extend(await
reader.read(size+2-len(buffer)))` of the chunked reader (lines 109-110). -/
def fillUpto : Nat → List Nat → Nat → List Nat → List Nat →
    Except HErr (List Nat × List Nat × List Nat)
  | 0, _, _, _, _ => .error .fuel
  | fuel + 1, buf, target, data, sched =>
    if target ≤ buf.length then .ok (buf, data, sched)
    else if data.isEmpty then .error .chunkEof
    else
      let r := rread data sched (target - buf.length)
      fillUpto fuel (buf ++ r.1) target r.2.1 r.2.2

/-- Chunk loop of the chunked reader (lines 97-113): find the size line,
parse it as hex, stop on a zero size, otherwise take that many payload
bytes, drop the trailing CRLF and continue.  `acc` collects `body_parts`. -/
def readChunksGo : Nat → List Nat → List Nat → List Nat → List Nat →
    Except HErr (List Nat)
  | 0, _, _, _, _ => .error .fuel
  | fuel + 1, buf, data, sched, acc =>
    match fillUntilCRLF (data.length + 1) buf data sched with
    | .error e => .error e
    | .ok (buf1, data1, sched1) =>
      let p := (findSeq [13, 10] buf1).getD 0
      let line := buf1.take p
      let buf2 := buf1.drop (p + 2)
      match parseHex line with
      | none => .error .intParse
      | some size =>
        if size = 0 then .ok acc
        else
          match fillUpto (data1.length + 1) buf2 (size + 2) data1 sched1 with
          | .error e => .error e
          | .ok (buf3, data3, sched3) =>
            readChunksGo fuel (buf3.drop (size + 2)) data3 sched3
              (acc ++ buf3.take size)

/-- Chunked body strategy (lines 93-115): the buffer starts as the bytes
already read past the header delimiter. -/
def chunkedBody (remaining data sched : List Nat) : Except HErr (List Nat) :=
  readChunksGo (remaining.length + data.length + 2) remaining data sched []

/-- Content-length read loop (lines 128-133): read exactly the missing
bytes, stopping early at end of stream; partial reads land through
bytearray slice assignment. -/
def clLoop : Nat → List Nat → Nat → Nat → List Nat → List Nat → List Nat
  | 0, body, _, _, _, _ => body
  | fuel + 1, body, idx, n, data, sched =>
    if idx < n then
      if data.isEmpty then body
      else
        let r := rread data sched (n - idx)
        clLoop fuel (sliceAssign body idx r.1) (idx + r.1.length) n r.2.1 r.2.2
    else body

/-- Content-length body strategy (lines 119-135): allocate `n` zero bytes,
seed from the bytes already read past the header delimiter (a seed longer
than `n` grows the buffer, as bytearray slice assignment does), then loop. -/
def contentLengthBody (n : Nat) (remaining data sched : List Nat) : List Nat :=
  if remaining = [] then
    clLoop (data.length + 1) (List.replicate n 0) 0 n data sched
  else
    clLoop (data.length + 1) (sliceAssign (List.replicate n 0) 0 remaining)
      remaining.length n data sched

/-- Fallback-buffer read loop (lines 149-158): 512-byte reads, raising
`Body too large` as soon as a chunk would push past the bound; on end of
stream return `body[:idx]`. -/
def fbLoop : Nat → List Nat → Nat → Nat → List Nat → List Nat →
    Except HErr (List Nat)
  | 0, _, _, _, _, _ => .error .fuel
  | fuel + 1, body, idx, fbs, data, sched =>
    if data.isEmpty then .ok (body.take idx)
    else
      let r := rread data sched 512
      if fbs < idx + r.1.length then .error .bodyTooLarge
      else fbLoop fuel (sliceAssign body idx r.1) (idx + r.1.length) fbs r.2.1 r.2.2

/-- Bounded-fallback body strategy (lines 138-160): allocate the supplied
buffer, reject a seed already larger than it, then loop. -/
def fallbackBody (fbs : Nat) (remaining data sched : List Nat) :
    Except HErr (List Nat) :=
  if remaining = [] then
    fbLoop (data.length + 1) (List.replicate fbs 0) 0 fbs data sched
  else if fbs < remaining.length then .error .bodyTooLarge
  else
    fbLoop (data.length + 1) (sliceAssign (List.replicate fbs 0) 0 remaining)
      remaining.length fbs data sched

/-- Dynamic accumulation loop (lines 163-172): read 512-byte chunks until
end of stream, unbounded. -/
def dynLoop : Nat → List Nat → List Nat → List Nat → List Nat
  | 0, acc, _, _ => acc
  | fuel + 1, acc, data, sched =>
    if data.isEmpty then acc
    else
      let r := rread data sched 512
      dynLoop fuel (acc ++ r.1) r.2.1 r.2.2

/-- Dynamic body strategy: the bytes past the delimiter followed by
everything until end of stream. -/
def dynamicBody (remaining data sched : List Nat) : List Nat :=
  dynLoop (data.length + 1) remaining data sched

/-- Header-line parsing of the client (lines 82-86): for each line with a
colon, split on the first colon, lowercase and strip the key, strip the
value, and store it (later duplicates overwrite). -/
def phlGo : List (List Nat) → List (List Nat × List Nat) →
    List (List Nat × List Nat)
  | [], d => d
  | l :: rest, d =>
    phlGo rest
      (if 58 ∈ l then
        let p := splitFirst 58 l
        dset d (trimB (lowerB p.1)) (trimB p.2)
      else d)

/-- Parsed client header map of a list of header lines. -/
def parseHeaderLines (ls : List (List Nat)) : List (List Nat × List Nat) :=
  phlGo ls []

/-- Body-decoding strategies of the client, in the priority order of
lines 88-163. -/
inductive Strat
  | chunked
  | contentLength
  | fallback
  | dynamic
deriving DecidableEq

/-- Strategy selection (lines 89-163): `Transfer-Encoding` containing
`chunked` wins, then a truthy `Content-Length`, then a truthy caller
supplied fallback size, then dynamic accumulation. -/
def selectStrategy (headers : List (List Nat × List Nat)) (fbs : Option Nat) :
    Strat :=
  let te := (dget headers (sb "transfer-encoding")).getD []
  let cl := dget headers (sb "content-length")
  if hasSub (sb "chunked") te then .chunked
  else if (match cl with | some v => !v.isEmpty | none => false : Bool) then
    .contentLength
  else
    match fbs with
    | some f => if f ≠ 0 then .fallback else .dynamic
    | none => .dynamic

/-- Body stage of one client attempt: dispatch on the selected strategy
exactly as the `if/elif` cascade of lines 93-172 does. -/
def runBody (headers : List (List Nat × List Nat))
    (remaining data sched : List Nat) (fbs : Option Nat) :
    Except HErr (List Nat) :=
  match selectStrategy headers fbs with
  | .chunked => chunkedBody remaining data sched
  | .contentLength =>
    match parseDec ((dget headers (sb "content-length")).getD []) with
    | none => .error .intParse
    | some n => .ok (contentLengthBody n remaining data sched)
  | .fallback => fallbackBody (fbs.getD 0) remaining data sched
  | .dynamic => .ok (dynamicBody remaining data sched)

/-- Response value of the client.  `headers` is `none` only for the
synthetic retry-exhaustion response (Python passes `None` there).  The
final `.decode()` to `str` is modelled as the identity on the byte list. -/
structure HttpRespM where
  status : Nat
  headers : Option (List (List Nat × List Nat))
  body : List Nat
deriving DecidableEq

/-- One full `single_request` (lines 41-174) on a response byte stream:
read the header bytes, split at the first `\r\n\r\n`, parse the status
line (any failure yields 500), parse the headers, then read the body by
the selected strategy. -/
def singleRequest (data sched : List Nat) (fbs : Option Nat) :
    Except HErr HttpRespM :=
  match readHeaderPhase (data.length + 1) [] data sched with
  | .error e => .error e
  | .ok (hb, data1, sched1) =>
    let pr := match findSeq (sb "\r\n\r\n") hb with
      | some p => (hb.take p, hb.drop (p + 4))
      | none => (hb, [])
    let lines := splitCRLF pr.1
    let toks := splitWs (lines.headD [])
    let status := match toks.get? 1 with
      | some t => (parseDec t).getD 500
      | none => 500
    let headers := parseHeaderLines lines.tail
    match runBody headers pr.2 data1 sched1 fbs with
    | .error e => .error e
    | .ok body => .ok ⟨status, some headers, body⟩

/-- Parsed URL of the client (lines 21-38). -/
structure UrlParts where
  useSsl : Bool
  port : Nat
  host : List Nat
  path : List Nat
deriving DecidableEq

/-- URL decomposition of `http_client` (lines 21-38): recognize the two
schemes, default the port, split host from path at the first slash. -/
def parseUrl (url : List Nat) : UrlParts :=
  let srp :=
    if isInit (sb "https://") url then (true, url.drop 8, 443)
    else if isInit (sb "http://") url then (false, url.drop 7, 80)
    else (false, url, 80)
  if 47 ∈ srp.2.1 then
    let p := splitFirst 47 srp.2.1
    ⟨srp.1, srp.2.2, p.1, 47 :: p.2⟩
  else ⟨srp.1, srp.2.2, srp.2.1, [47]⟩

/-- Synthetic retry-exhaustion response `HttpResponse(500, None, str(e))`
(line 196). -/
def syntheticResp (e : HErr) : HttpRespM := ⟨500, none, herrMsg e⟩

/-- Retry loop of `http_client` (lines 186-198), abstracted over the
outcome of each attempt (`att i` is what attempt `i` returns or raises:
a `singleRequest` run, a connect failure, a timeout...).  Returns the
response (none only for `retries = 0`, where the Python function falls
off the loop and returns `None`), the number of attempts made, and the
list of backoff sleeps in milliseconds. -/
def retryFrom (att : Nat → Except HErr HttpRespM) :
    Nat → Nat → Option HttpRespM × Nat × List Nat
  | _, 0 => (none, 0, [])
  | i, n + 1 =>
    match att i with
    | .ok r => (some r, 1, [])
    | .error e =>
      if n = 0 then (some (syntheticResp e), 1, [])
      else
        let t := retryFrom att (i + 1) n
        (t.1, t.2.1 + 1, 1000 :: t.2.2)

/-- The whole `http_client(url, retries, ...)` call: parse the URL, then run
the retry loop over the per-attempt outcomes. -/
def http_client (url : List Nat) (att : Nat → Except HErr HttpRespM)
    (retries : Nat) : Option HttpRespM × Nat × List Nat :=
  let _u := parseUrl url
  retryFrom att 0 retries

/-!
Server engine (`src/modules/http_server.py`).

The transport is modelled by a script: each `await` of `readline()` or
`read(n)` consumes the next script entry, which delivers a line / chunk,
or raises a timeout (`asyncio.wait_for` expiry) or an `OSError`.  Writes
are modelled as trace events and never fail (the `write` helper swallows
connection resets).  Hooks and handlers are application code: hooks are
opaque tags whose invocation is recorded in the trace, handlers are
functions from the request to a result or a raised exception.
-/

/-- One scripted transport read. -/
inductive RdEv
  | bytes (bs : List Nat)
  | timeout
  | oserr
deriving DecidableEq

/-- Python exceptions that reach `handle`'s `except` clauses. -/
inductive PyExc
  | httpErr (code : Nat) (msg : List Nat)
  | osErr
  | timeoutErr
  | other (msg : List Nat)
deriving DecidableEq

/-- Trace events of one connection: transport reads, response writes,
hook invocations, the route-handler call, and the final close. -/
inductive Ev
  | readOp
  | write (bs : List Nat)
  | beforeHook (t : Nat)
  | handlerCall (url : List Nat)
  | errorHook (t : Nat) (code : Nat)
  | afterHook (t : Nat) (status : Nat)
  | close
deriving DecidableEq

/-- Request value handed to hooks and handlers (class `Request`).
`jsonBody` is `some body` when the POST body was non-empty and decoded as
JSON (the JSON library is an external collaborator, abstracted by the
`jsonOk` predicate of the server configuration). -/
structure SReq where
  method : List Nat
  url : List Nat
  args : List (List Nat × List Nat)
  headers : List (List Nat × List Nat)
  jsonBody : Option (List Nat)

/-- Result of one route handler call (duck-typed in the source): a
dict/list (carried as its `json.dumps` rendering), a string, `None`, or a
raised exception. -/
inductive HRes
  | jsonV (dumps : List Nat)
  | textV (s : List Nat)
  | noneV
  | raiseHttp (code : Nat) (msg : List Nat)
  | raiseOs
  | raiseTimeout
  | raiseOther (msg : List Nat)

/-- Server instance state fixed at startup: the connection cap, the route
table, the hook lists (opaque tags), the static file system (path to
content), and the JSON decodability predicate. -/
structure SrvCfg where
  maxConn : Nat
  routes : List (List Nat × ((SReq → HRes) × List (List Nat)))
  beforeHooks : List Nat
  afterHooks : List Nat
  errorHooks : List Nat
  fs : List (List Nat × List Nat)
  jsonOk : List Nat → Bool

/-- MIME table `_MIME` (lines 7-15). -/
def mimeTable : List (List Nat × List Nat) :=
  [(sb ".html", sb "text/html"),
   (sb ".css", sb "text/css"),
   (sb ".js", sb "application/javascript"),
   (sb ".ico", sb "image/x-icon"),
   (sb ".png", sb "image/png"),
   (sb ".jpg", sb "image/jpeg"),
   (sb ".json", sb "application/json")]

/-- Bytes written by `send_headers` (lines 59-71): status line, content
type, caching directives, CORS headers, final blank line. -/
def sendHeadersBytes (status : Nat) (ctype : List Nat) (cache : Bool) :
    List Nat :=
  sb "HTTP/1.1 " ++ natDec status ++ sb "\r\n"
  ++ sb "Content-Type: " ++ ctype ++ sb "\r\n"
  ++ (if cache then sb "Cache-Control: max-age=31536000\r\n"
      else sb "Cache-Control: no-cache, no-store, must-revalidate\r\n"
        ++ sb "Pragma: no-cache\r\n" ++ sb "Expires: 0\r\n")
  ++ sb "Access-Control-Allow-Origin: *\r\n"
  ++ sb "Access-Control-Allow-Methods: GET, POST, OPTIONS\r\n"
  ++ sb "Access-Control-Allow-Headers: Content-Type, Authorization\r\n\r\n"

/-- The 503 rejection payload written at the admission cap
(lines 118-121). -/
def the503 : List Nat :=
  sb "HTTP/1.1 503 Service Unavailable\r\nContent-Type: text/html\r\n\r\n<h1>503 Too many connections</h1>"

/-- File streaming of `send_file` (lines 43-51): 512-byte chunks, one
write each. -/
def chunksOf : Nat → Nat → List Nat → List (List Nat)
  | 0, _, _ => []
  | f + 1, n, l => if l = [] then [] else l.take n :: chunksOf f n (l.drop n)

/-- Write events produced by streaming a file's content. -/
def fileChunkWrites (content : List Nat) : List Ev :=
  (chunksOf content.length 512 content).map Ev.write

/-- Static path under the fixed root: `f"{self.STATIC_DIR}/{url[1:]}"`
with `STATIC_DIR = './html'` (lines 75, 252). -/
def staticPath (url : List Nat) : List Nat :=
  sb "./html" ++ [47] ++ url.drop 1

/-- Static responder `serve_static` (lines 246-263): append `.html` when
the whole URL has no dot, resolve under the root, choose the content type
by the extension after the last dot, stream the file, else answer 404. -/
def serveStaticEvs (fs : List (List Nat × List Nat)) (url0 : List Nat) :
    List Ev :=
  let url := if 46 ∈ url0 then url0 else url0 ++ sb ".html"
  let path := staticPath url
  let ext := 46 :: lastSeg 46 url
  let ctype := (dget mimeTable ext).getD (sb "application/octet-stream")
  match dget fs path with
  | some content =>
    Ev.write (sendHeadersBytes 200 ctype true) :: fileChunkWrites content
  | none =>
    [Ev.write (sendHeadersBytes 404 (sb "text/html") false),
     Ev.write (sb "<h1>404 Not Found</h1>")]

/-- Query-string parsing (lines 147-152): pairs split on `&`, each split
on the first `=`, a pair without `=` yielding an empty value; later
duplicate keys overwrite, as in the dict comprehension. -/
def qgo : List (List Nat) → List (List Nat × List Nat) →
    List (List Nat × List Nat)
  | [], d => d
  | p :: rest, d =>
    let kv := if 61 ∈ p then splitFirst 61 p else (p, [])
    qgo rest (dset d kv.1 kv.2)

/-- Arguments map of a query string. -/
def parseQuery (q : List Nat) : List (List Nat × List Nat) :=
  qgo (splitByte 38 q) []

/-- Header-reading loop of the server (lines 158-165): read lines until a
blank line or end, split on the first colon, strip both sides, store the
key verbatim (no lowercasing).  An exhausted script stands for a readline
that never completes; its `wait_for` expiry is the timeout error. -/
def srvReadHdrs : List RdEv → List (List Nat × List Nat) →
    List Ev × Except PyExc (List (List Nat × List Nat) × List RdEv)
  | [], _ => ([.readOp], .error .timeoutErr)
  | .timeout :: _, _ => ([.readOp], .error .timeoutErr)
  | .oserr :: _, _ => ([.readOp], .error .osErr)
  | .bytes hl :: rest, d =>
    if hl = [] ∨ hl = [13, 10] then ([.readOp], .ok (d, rest))
    else
      let d2 := if 58 ∈ hl then
          let p := splitFirst 58 hl
          dset d (trimB p.1) (trimB p.2)
        else d
      let t := srvReadHdrs rest d2
      (.readOp :: t.1, t.2)

/-- POST body loop (lines 170-172): `while len(body) < length`, reading at
most the missing bytes each time. -/
def srvReadPost (script : List RdEv) (needed : Nat) (acc : List Nat) :
    List Ev × Except PyExc (List Nat × List RdEv) :=
  if needed ≤ acc.length then ([], .ok (acc, script))
  else
    match script with
    | [] => ([.readOp], .error .timeoutErr)
    | .timeout :: _ => ([.readOp], .error .timeoutErr)
    | .oserr :: _ => ([.readOp], .error .osErr)
    | .bytes c :: rest =>
      let c2 := c.take (needed - acc.length)
      let t := srvReadPost rest needed (acc ++ c2)
      (.readOp :: t.1, t.2)

/-- Route dispatch and response writing (lines 192-207): exact path lookup
with `(None, None)` default, wildcard lookup only when that failed, the
handler runs only when it exists and allows the method, otherwise the
static responder takes over.  Dict/list results are sent as JSON, strings
as plain text, anything else writes nothing more. -/
def dispatchStage (cfg : SrvCfg) (req : SReq) : List Ev × Option PyExc :=
  match (match dget cfg.routes req.url with
    | some hm => some hm
    | none => dget cfg.routes (sb "*")) with
  | some (h, ms) =>
    if req.method ∈ ms then
      match h req with
      | .jsonV bs =>
        ([.handlerCall req.url,
          .write (sendHeadersBytes 200 (sb "application/json") false),
          .write bs], none)
      | .textV s =>
        ([.handlerCall req.url,
          .write (sendHeadersBytes 200 (sb "text/plain") false),
          .write s], none)
      | .noneV => ([.handlerCall req.url], none)
      | .raiseHttp c m => ([.handlerCall req.url], some (.httpErr c m))
      | .raiseOs => ([.handlerCall req.url], some .osErr)
      | .raiseTimeout => ([.handlerCall req.url], some .timeoutErr)
      | .raiseOther m => ([.handlerCall req.url], some (.other m))
    else (serveStaticEvs cfg.fs req.url, none)
  | none => (serveStaticEvs cfg.fs req.url, none)

/-- Outcome of the `try` block of `handle` (lines 136-207): the trace so
far, the value of the `status_code` local at exit (set to 200 at line 134
and changed only by the OPTIONS branch), the exception that escaped the
block (if any), and the POST body bytes consumed. -/
structure TB where
  events : List Ev
  status : Nat
  exc : Option PyExc
  bodyRead : List Nat

/-- The `try` block of `handle` (lines 136-207): read and parse the
request line (an empty line or a token count other than 3 returns
silently), parse query arguments, read the headers, read and JSON-decode a
POST body, run the before-hooks, short-circuit OPTIONS to 204, then
dispatch. -/
def srvTryBody (cfg : SrvCfg) (script : List RdEv) : TB :=
  match script with
  | [] => ⟨[.readOp], 200, some .timeoutErr, []⟩
  | .timeout :: _ => ⟨[.readOp], 200, some .timeoutErr, []⟩
  | .oserr :: _ => ⟨[.readOp], 200, some .osErr, []⟩
  | .bytes line :: rest =>
    if line = [] then ⟨[.readOp], 200, none, []⟩
    else
      match splitWs line with
      | [method, fullUrl, _ver] =>
        let ua :=
          if 63 ∈ fullUrl then
            let p := splitFirst 63 fullUrl
            (p.1, parseQuery p.2)
          else (fullUrl, ([] : List (List Nat × List Nat)))
        match srvReadHdrs rest [] with
        | (hevs, .error e) => ⟨.readOp :: hevs, 200, some e, []⟩
        | (hevs, .ok (hdrs, rest2)) =>
          let postRes :=
            if method = sb "POST" then
              match dget hdrs (sb "Content-Length") with
              | none => (([] : List Ev), Except.ok (([] : List Nat), rest2))
              | some v =>
                match parseDec v with
                | none =>
                  (([] : List Ev),
                   Except.error (PyExc.other (sb "invalid literal for int()")))
                | some n => srvReadPost rest2 n []
            else (([] : List Ev), Except.ok (([] : List Nat), rest2))
          match postRes with
          | (pevs, .error e) => ⟨.readOp :: hevs ++ pevs, 200, some e, []⟩
          | (pevs, .ok (body, _rest3)) =>
            let jsonB := if body ≠ [] ∧ cfg.jsonOk body then some body else none
            let req : SReq := ⟨method, ua.1, ua.2, hdrs, jsonB⟩
            let bevs := cfg.beforeHooks.map Ev.beforeHook
            if method = sb "OPTIONS" then
              ⟨.readOp :: hevs ++ pevs ++ bevs
                ++ [.write (sendHeadersBytes 204 (sb "text/html") false)],
               204, none, body⟩
            else
              let dr := dispatchStage cfg req
              ⟨.readOp :: hevs ++ pevs ++ bevs ++ dr.1, 200, dr.2, body⟩
      | _ => ⟨[.readOp], 200, none, []⟩

/-- Outcome of one `handle` call: the connection trace, the admitted set
afterwards, whether the connection was admitted, and the POST body bytes
consumed. -/
structure HOut where
  events : List Ev
  connsAfter : Finset Nat
  admitted : Bool
  bodyRead : List Nat

/-- One full `handle` call (lines 111-244).  At the cap the connection is
answered 503 and closed before any read, and never enters the set.
Otherwise it is admitted, the `try` block runs, the `except` clauses
answer typed HTTP errors and unexpected exceptions (transport errors only
log), and the `finally` clause runs every after-hook with the
`status_code` local, closes the transport, and discards the connection
from the set. -/
def serverHandle (cfg : SrvCfg) (conns : Finset Nat) (cid : Nat)
    (script : List RdEv) : HOut :=
  if cfg.maxConn ≤ conns.card then
    ⟨[.write the503, .close], conns, false, []⟩
  else
    let tb := srvTryBody cfg script
    let eevs : List Ev :=
      match tb.exc with
      | none => []
      | some (.httpErr code msg) =>
        cfg.errorHooks.map (fun t => Ev.errorHook t code)
        ++ [.write (sendHeadersBytes code (sb "text/html") false),
            .write (sb "<h1>" ++ msg ++ sb "</h1>")]
      | some .osErr => []
      | some .timeoutErr => []
      | some (.other _) =>
        cfg.errorHooks.map (fun t => Ev.errorHook t 500)
        ++ [.write (sendHeadersBytes 500 (sb "text/html") false),
            .write (sb "<h1>500 Internal Server Error</h1>")]
    ⟨tb.events ++ eevs
      ++ cfg.afterHooks.map (fun t => Ev.afterHook t tb.status) ++ [.close],
     (insert cid conns).erase cid, true, tb.bodyRead⟩

/-- Reachable admitted-connection sets: the two lock-protected mutations of
`self._connections` are the guarded insert at accept time (lines 115-127)
and the discard at teardown (lines 243-244); any interleaving of
connections is a sequence of these steps. -/
inductive ConnReach (maxConn : Nat) : Finset Nat → Prop
  | init : ConnReach maxConn ∅
  | accept (s : Finset Nat) (cid : Nat) : ConnReach maxConn s →
      s.card < maxConn → ConnReach maxConn (insert cid s)
  | teardown (s : Finset Nat) (cid : Nat) : ConnReach maxConn s →
      ConnReach maxConn (s.erase cid)

/-- True on after-hook trace events. -/
def evIsAfter : Ev → Bool
  | .afterHook _ _ => true
  | _ => false

/-- True on read trace events. -/
def evIsRead : Ev → Bool
  | .readOp => true
  | _ => false

/-- True on handler-call trace events. -/
def evIsHandler : Ev → Bool
  | .handlerCall _ => true
  | _ => false

/-- Bytes written over the connection, in order. -/
def writtenOf : List Ev → List Nat
  | [] => []
  | .write bs :: rest => bs ++ writtenOf rest
  | _ :: rest => writtenOf rest

/-- Modelled from the spec: chunked transfer encoding of one chunk, the
hex-size line, CRLF, the payload, CRLF (wire grammar of section 6; the
repository contains no encoder, only the client's decoder). -/
def encodeChunk (c : List Nat) : List Nat :=
  toHex c.length ++ [13, 10] ++ c ++ [13, 10]

/-- Modelled from the spec: chunked transfer encoding of a body split into
the given chunks, terminated by a zero-size chunk. -/
def encodeChunked (chunks : List (List Nat)) : List Nat :=
  joinL (chunks.map encodeChunk) ++ [48, 13, 10, 13, 10]

/-- Two header lines differ at most in the letter case of the header name:
either both carry a colon, with keys equal up to ASCII case and identical
values, or they are identical. -/
def lineKeyEqv (l1 l2 : List Nat) : Bool :=
  if 58 ∈ l1 then
    if 58 ∈ l2 then
      let p1 := splitFirst 58 l1
      let p2 := splitFirst 58 l2
      lowerB p1.1 == lowerB p2.1 && p1.2 == p2.2
    else false
  else l1 == l2

/-- Pointwise `lineKeyEqv` on two lists of header lines. -/
def linesKeyEqv : List (List Nat) → List (List Nat) → Bool
  | [], [] => true
  | l1 :: r1, l2 :: r2 => lineKeyEqv l1 l2 && linesKeyEqv r1 r2
  | _, _ => false

/-!
Lemmas about the stream and search primitives.
-/

theorem rread_spec (data sched : List Nat) (n : Nat) (hn : 1 ≤ n)
    (hd : data ≠ []) :
    ∃ m, 1 ≤ m ∧ m ≤ data.length ∧ m ≤ n ∧
      rread data sched n = (data.take m, data.drop m, sched.drop 1) := by
  refine ⟨min (min (match sched with
    | [] => n
    | k0 :: _ => max k0 1) n) data.length, ?_, ?_, ?_, rfl⟩
  · have h1 : 1 ≤ (match sched with | [] => n | k0 :: _ => max k0 1) := by
      cases sched with
      | nil => exact hn
      | cons k0 t => exact Nat.le_max_right k0 1
    have h2 : 1 ≤ data.length := List.length_pos.mpr hd
    exact le_min (le_min h1 hn) h2
  · exact min_le_right _ _
  · exact le_trans (min_le_left _ _) (min_le_right _ _)

theorem isInit_append {pat l : List Nat} (e : List Nat)
    (h : isInit pat l = true) : isInit pat (l ++ e) = true := by
  induction pat generalizing l with
  | nil => simp [isInit]
  | cons a x ih =>
    cases l with
    | nil => simp [isInit] at h
    | cons b y =>
      simp only [isInit, Bool.and_eq_true, beq_iff_eq] at h
      simp only [List.cons_append, isInit, Bool.and_eq_true, beq_iff_eq]
      exact ⟨h.1, ih h.2⟩

theorem isInit_length {pat l : List Nat} (h : isInit pat l = true) :
    pat.length ≤ l.length := by
  induction pat generalizing l with
  | nil => simp
  | cons a x ih =>
    cases l with
    | nil => simp [isInit] at h
    | cons b y =>
      simp only [isInit, Bool.and_eq_true, beq_iff_eq] at h
      simpa using ih h.2

theorem isInit_false_append {pat l : List Nat} (e : List Nat)
    (hf : isInit pat l = false) (ht : isInit pat (l ++ e) = true) :
    l.length < pat.length := by
  induction pat generalizing l with
  | nil => simp [isInit] at hf
  | cons a x ih =>
    cases l with
    | nil => simp
    | cons b y =>
      simp only [List.cons_append, isInit, Bool.and_eq_true, beq_iff_eq] at ht
      simp only [isInit, Bool.and_eq_true, beq_iff_eq, Bool.and_eq_false_iff] at hf
      rcases hf with hf | hf
      · exact absurd ht.1 (by simpa using hf)
      · simpa using ih hf ht.2

theorem findSeq_cons_pos {pat : List Nat} {a : Nat} {rest : List Nat}
    (h : isInit pat (a :: rest) = true) :
    findSeq pat (a :: rest) = some 0 := by
  simp [findSeq, h]

theorem findSeq_cons_neg {pat : List Nat} {a : Nat} {rest : List Nat}
    (h : isInit pat (a :: rest) = false) :
    findSeq pat (a :: rest) = (findSeq pat rest).map (· + 1) := by
  simp [findSeq, h]

theorem findSeq_bound {pat l : List Nat} {p : Nat}
    (h : findSeq pat l = some p) : p + pat.length ≤ l.length := by
  induction l generalizing p with
  | nil =>
    cases hi : isInit pat [] with
    | true =>
      rw [show findSeq pat [] = some 0 by simp [findSeq, hi]] at h
      cases h
      simpa using isInit_length hi
    | false => rw [show findSeq pat [] = none by simp [findSeq, hi]] at h; cases h
  | cons a rest ih =>
    cases hi : isInit pat (a :: rest) with
    | true =>
      rw [findSeq_cons_pos hi] at h
      cases h
      simpa using isInit_length hi
    | false =>
      rw [findSeq_cons_neg hi] at h
      rw [Option.map_eq_some'] at h
      obtain ⟨q, hq, hpq⟩ := h
      have := ih hq
      simp only [List.length_cons]
      omega

theorem findSeq_nil_pat (l : List Nat) : findSeq [] l = some 0 := by
  cases l <;> simp [findSeq, isInit]

theorem findSeq_stable {pat l : List Nat} (e : List Nat)
    (h : (findSeq pat l).isSome = true) :
    findSeq pat (l ++ e) = findSeq pat l := by
  induction l with
  | nil =>
    cases hi : isInit pat [] with
    | true =>
      cases pat with
      | nil => simp [findSeq_nil_pat]
      | cons a x => simp [isInit] at hi
    | false => rw [show findSeq pat [] = none by simp [findSeq, hi]] at h; cases h
  | cons a rest ih =>
    cases hi : isInit pat (a :: rest) with
    | true =>
      have he : isInit pat (a :: (rest ++ e)) = true := by
        have := isInit_append e hi
        simpa using this
      rw [List.cons_append, findSeq_cons_pos he, findSeq_cons_pos hi]
    | false =>
      have hrest : (findSeq pat rest).isSome = true := by
        rw [findSeq_cons_neg hi] at h
        simpa using h
      obtain ⟨q, hq⟩ := Option.isSome_iff_exists.mp hrest
      cases hie : isInit pat (a :: (rest ++ e)) with
      | true =>
        exfalso
        have h1 := isInit_false_append e hi (by simpa using hie)
        have h2 := findSeq_bound hq
        simp only [List.length_cons] at h1
        omega
      | false =>
        rw [List.cons_append, findSeq_cons_neg hie, findSeq_cons_neg hi, ih hrest]

theorem findSeq_no13 {l : List Nat} (r : List Nat)
    (h : ∀ a ∈ l, a ≠ 13) :
    findSeq [13, 10] (l ++ 13 :: 10 :: r) = some l.length := by
  induction l with
  | nil => simp [findSeq, isInit]
  | cons a rest ih =>
    have ha : a ≠ 13 := h a (by simp)
    have hi : isInit [13, 10] (a :: (rest ++ 13 :: 10 :: r)) = false := by
      simp only [isInit, Bool.and_eq_false_iff]
      left
      simpa [beq_iff_eq] using fun hc => ha hc.symm
    rw [List.cons_append, findSeq_cons_neg hi, ih (fun b hb => h b (by simp [hb]))]
    simp

theorem fillUntilCRLF_spec :
    ∀ (fuel : Nat) (buf data sched : List Nat),
      data.length < fuel → hasSub [13, 10] (buf ++ data) = true →
      ∃ k sched2, k ≤ data.length ∧
        fillUntilCRLF fuel buf data sched
          = .ok (buf ++ data.take k, data.drop k, sched2) ∧
        hasSub [13, 10] (buf ++ data.take k) = true := by
  intro fuel
  induction fuel with
  | zero => intro buf data sched hf _; omega
  | succ f ih =>
    intro buf data sched hf hsub
    by_cases hb : hasSub [13, 10] buf = true
    · refine ⟨0, sched, Nat.zero_le _, ?_, ?_⟩
      · simp [fillUntilCRLF, hb]
      · simpa using hb
    · have hd : data ≠ [] := by
        intro hnil
        subst hnil
        simp only [List.append_nil] at hsub
        exact hb hsub
      obtain ⟨m, hm1, hm2, _hm3, hre⟩ := rread_spec data sched 64 (by omega) hd
      have hlen : (data.drop m).length < f := by
        simp only [List.length_drop]
        omega
      have hsub2 : hasSub [13, 10] ((buf ++ data.take m) ++ data.drop m) = true := by
        rw [List.append_assoc, List.take_append_drop]
        exact hsub
      obtain ⟨k2, sched2, hk2, heq, hsub3⟩ :=
        ih (buf ++ data.take m) (data.drop m) (sched.drop 1) hlen hsub2
      refine ⟨m + k2, sched2, ?_, ?_, ?_⟩
      · simp only [List.length_drop] at hk2
        omega
      · have hstep : fillUntilCRLF (f + 1) buf data sched
            = fillUntilCRLF f (buf ++ data.take m) (data.drop m) (sched.drop 1) := by
          simp only [fillUntilCRLF, hb, Bool.false_eq_true, if_false,
            List.isEmpty_iff, hd, hre]
        rw [hstep, heq, List.append_assoc, ← List.take_add, List.drop_drop]
      · rw [List.append_assoc, ← List.take_add] at hsub3
        exact hsub3

theorem fillUpto_spec :
    ∀ (fuel : Nat) (buf : List Nat) (target : Nat) (data sched : List Nat),
      data.length < fuel → target ≤ buf.length + data.length →
      ∃ k sched2, k ≤ data.length ∧
        fillUpto fuel buf target data sched
          = .ok (buf ++ data.take k, data.drop k, sched2) ∧
        target ≤ buf.length + k := by
  intro fuel
  induction fuel with
  | zero => intro buf target data sched hf _; omega
  | succ f ih =>
    intro buf target data sched hf htot
    by_cases hb : target ≤ buf.length
    · refine ⟨0, sched, Nat.zero_le _, ?_, by omega⟩
      simp [fillUpto, hb]
    · have hd : data ≠ [] := by
        intro hnil
        subst hnil
        simp only [List.length_nil, Nat.add_zero] at htot
        omega
      obtain ⟨m, hm1, hm2, _hm3, hre⟩ :=
        rread_spec data sched (target - buf.length) (by omega) hd
      have hlen : (data.drop m).length < f := by
        simp only [List.length_drop]
        omega
      have htot2 : target ≤ (buf ++ data.take m).length + (data.drop m).length := by
        simp only [List.length_append, List.length_take, List.length_drop]
        omega
      obtain ⟨k2, sched2, hk2, heq, hend⟩ :=
        ih (buf ++ data.take m) target (data.drop m) (sched.drop 1) hlen htot2
      refine ⟨m + k2, sched2, ?_, ?_, ?_⟩
      · simp only [List.length_drop] at hk2
        omega
      · have hstep : fillUpto (f + 1) buf target data sched
            = fillUpto f (buf ++ data.take m) target (data.drop m) (sched.drop 1) := by
          simp only [fillUpto, hb, if_false, List.isEmpty_iff, hd, hre]
        rw [hstep, heq, List.append_assoc, ← List.take_add, List.drop_drop]
      · simp only [List.length_append, List.length_take] at hend
        omega

theorem take_eq_of_append {x y T : List Nat} (h : x ++ y = T) {n : Nat}
    (hn : n ≤ x.length) : x.take n = T.take n := by
  subst h
  exact (List.take_append_of_le_length hn).symm

theorem drop_append_eq_of_append {x y T : List Nat} (h : x ++ y = T) {n : Nat}
    (hn : n ≤ x.length) : x.drop n ++ y = T.drop n := by
  subst h
  exact (List.drop_append_of_le_length hn).symm

theorem parseHexCore_append (acc : Nat) (l1 l2 : List Nat) :
    parseHexCore acc (l1 ++ l2)
      = match parseHexCore acc l1 with
        | none => none
        | some m => parseHexCore m l2 := by
  induction l1 generalizing acc with
  | nil => simp [parseHexCore]
  | cons c rest ih =>
    simp only [List.cons_append, parseHexCore]
    cases hexDigitVal c with
    | none => simp
    | some v => simp [ih]

theorem hexDigitVal_hexDigitB {d : Nat} (h : d < 16) :
    hexDigitVal (hexDigitB d) = some d := by
  unfold hexDigitVal hexDigitB
  by_cases h10 : d < 10
  · rw [if_pos h10, if_pos (by omega)]
    congr 1
    omega
  · rw [if_neg h10, if_neg (by omega), if_pos (by omega)]
    congr 1
    omega

theorem toHexRev_parse : ∀ (f n : Nat), n ≤ f →
    parseHexCore 0 ((toHexRev f n).reverse) = some n := by
  intro f
  induction f with
  | zero =>
    intro n hn
    have : n = 0 := by omega
    subst this
    simp [toHexRev, parseHexCore]
  | succ f ih =>
    intro n hn
    match n with
    | 0 => simp [toHexRev, parseHexCore]
    | m + 1 =>
      have hdivlt : (m + 1) / 16 < m + 1 := Nat.div_lt_self (by omega) (by omega)
      have hstep : toHexRev (f + 1) (m + 1)
          = hexDigitB ((m + 1) % 16) :: toHexRev f ((m + 1) / 16) := rfl
      rw [hstep, List.reverse_cons, parseHexCore_append,
        ih ((m + 1) / 16) (by omega)]
      simp only [parseHexCore]
      rw [hexDigitVal_hexDigitB (Nat.mod_lt _ (by omega))]
      simp only [parseHexCore]
      congr 1
      omega

theorem toHexRev_ne_nil (n : Nat) (hn : n ≠ 0) : toHexRev n n ≠ [] := by
  match n with
  | 0 => exact absurd rfl hn
  | m + 1 => simp [toHexRev]

theorem parseHex_toHex (n : Nat) : parseHex (toHex n) = some n := by
  by_cases hn : n = 0
  · subst hn
    decide
  · have hne : (toHexRev n n).reverse ≠ [] := by
      simpa using toHexRev_ne_nil n hn
    rw [toHex, if_neg hn, parseHex, if_neg hne]
    exact toHexRev_parse n n le_rfl

theorem toHexRev_mem_range : ∀ (f n a : Nat), a ∈ toHexRev f n →
    48 ≤ a ∧ a ≤ 102 := by
  intro f
  induction f with
  | zero => intro n a ha; simp [toHexRev] at ha
  | succ f ih =>
    intro n a ha
    match n with
    | 0 => simp [toHexRev] at ha
    | m + 1 =>
      rw [show toHexRev (f + 1) (m + 1)
          = hexDigitB ((m + 1) % 16) :: toHexRev f ((m + 1) / 16) from rfl] at ha
      rcases List.mem_cons.mp ha with ha | ha
      · subst ha
        unfold hexDigitB
        by_cases h10 : (m + 1) % 16 < 10
        · rw [if_pos h10]
          omega
        · rw [if_neg h10]
          have : (m + 1) % 16 < 16 := Nat.mod_lt _ (by omega)
          omega
      · exact ih _ a ha

theorem toHex_no13 (n : Nat) : ∀ a ∈ toHex n, a ≠ 13 := by
  intro a ha
  unfold toHex at ha
  by_cases hn : n = 0
  · rw [if_pos hn] at ha
    simp at ha
    omega
  · rw [if_neg hn, List.mem_reverse] at ha
    have := toHexRev_mem_range n n a ha
    omega

theorem encodeChunked_cons (c : List Nat) (tl : List (List Nat)) :
    encodeChunked (c :: tl) = encodeChunk c ++ encodeChunked tl := by
  simp [encodeChunked, joinL, List.append_assoc]

theorem readChunksGo_spec :
    ∀ (chunks : List (List Nat)) (fuel : Nat) (buf data sched acc : List Nat),
      (∀ c ∈ chunks, c ≠ []) → chunks.length < fuel →
      buf ++ data = encodeChunked chunks →
      readChunksGo fuel buf data sched acc = .ok (acc ++ joinL chunks) := by
  intro chunks
  induction chunks with
  | nil =>
    intro fuel buf data sched acc _ hfuel hT
    cases fuel with
    | zero => omega
    | succ f =>
      have hTval : buf ++ data = [48, 13, 10, 13, 10] := hT
      have hsub : hasSub [13, 10] (buf ++ data) = true := by
        rw [hTval]
        decide
      obtain ⟨k, sched2, hk, hfill, hsubk⟩ :=
        fillUntilCRLF_spec (data.length + 1) buf data sched (by omega) hsub
      have hpre : (buf ++ data.take k) ++ data.drop k = [48, 13, 10, 13, 10] := by
        rw [List.append_assoc, List.take_append_drop]
        exact hTval
      have hfs : findSeq [13, 10] (buf ++ data.take k) = some 1 := by
        have hstab := findSeq_stable (data.drop k) hsubk
        rw [hpre] at hstab
        rw [show findSeq [13, 10] [48, 13, 10, 13, 10] = some 1 by decide] at hstab
        exact hstab.symm
      have hbnd : 1 + 2 ≤ (buf ++ data.take k).length := by
        simpa using findSeq_bound hfs
      have hline : (buf ++ data.take k).take 1 = [48] := by
        rw [take_eq_of_append hpre (by omega)]
        rfl
      simp only [readChunksGo, hfill]
      rw [hfs]
      simp only [Option.getD_some, hline]
      rw [show parseHex [48] = some 0 by decide]
      simp [joinL]
  | cons c tl ih =>
    intro fuel buf data sched acc hne hfuel hT
    cases fuel with
    | zero => omega
    | succ f =>
      have hc : c ≠ [] := hne c (by simp)
      have htl : ∀ x ∈ tl, x ≠ [] := fun x hx => hne x (by simp [hx])
      have hTform : encodeChunked (c :: tl)
          = toHex c.length ++ 13 :: 10 :: (c ++ 13 :: 10 :: encodeChunked tl) := by
        rw [encodeChunked_cons]
        simp [encodeChunk, List.append_assoc]
      have hT2 : buf ++ data
          = toHex c.length ++ 13 :: 10 :: (c ++ 13 :: 10 :: encodeChunked tl) := by
        rw [hT, hTform]
      have hfsT : findSeq [13, 10]
          (toHex c.length ++ 13 :: 10 :: (c ++ 13 :: 10 :: encodeChunked tl))
          = some (toHex c.length).length :=
        findSeq_no13 _ (toHex_no13 c.length)
      have hsub : hasSub [13, 10] (buf ++ data) = true := by
        rw [hT2]
        show (findSeq [13, 10] _).isSome = true
        rw [hfsT]
        rfl
      obtain ⟨k, sched2, hk, hfill, hsubk⟩ :=
        fillUntilCRLF_spec (data.length + 1) buf data sched (by omega) hsub
      have hpre : (buf ++ data.take k) ++ data.drop k
          = toHex c.length ++ 13 :: 10 :: (c ++ 13 :: 10 :: encodeChunked tl) := by
        rw [List.append_assoc, List.take_append_drop]
        exact hT2
      have hfs1 : findSeq [13, 10] (buf ++ data.take k)
          = some (toHex c.length).length := by
        have hstab := findSeq_stable (data.drop k) hsubk
        rw [hpre, hfsT] at hstab
        exact hstab.symm
      have hbnd : (toHex c.length).length + 2 ≤ (buf ++ data.take k).length := by
        simpa using findSeq_bound hfs1
      have hline : (buf ++ data.take k).take (toHex c.length).length
          = toHex c.length := by
        rw [take_eq_of_append hpre (by omega)]
        exact List.take_left _ _
      have hbuf2 : (buf ++ data.take k).drop ((toHex c.length).length + 2)
          ++ data.drop k = c ++ 13 :: 10 :: encodeChunked tl := by
        rw [drop_append_eq_of_append hpre (by omega)]
        rw [show toHex c.length ++ 13 :: 10 :: (c ++ 13 :: 10 :: encodeChunked tl)
            = (toHex c.length ++ [13, 10]) ++ (c ++ 13 :: 10 :: encodeChunked tl) by
          simp [List.append_assoc]]
        rw [show (toHex c.length).length + 2 = (toHex c.length ++ [13, 10]).length by
          simp]
        exact List.drop_left _ _
      have htot : c.length + 2
          ≤ ((buf ++ data.take k).drop ((toHex c.length).length + 2)).length
            + (data.drop k).length := by
        have hlb2 := congrArg List.length hbuf2
        simp only [List.length_append, List.length_cons] at hlb2
        omega
      obtain ⟨k2, sched3, hk2, hfill2, hend2⟩ :=
        fillUpto_spec ((data.drop k).length + 1)
          ((buf ++ data.take k).drop ((toHex c.length).length + 2))
          (c.length + 2) (data.drop k) sched2 (by omega) htot
      have hpre3 : ((buf ++ data.take k).drop ((toHex c.length).length + 2)
            ++ (data.drop k).take k2) ++ (data.drop k).drop k2
          = c ++ 13 :: 10 :: encodeChunked tl := by
        rw [List.append_assoc, List.take_append_drop]
        exact hbuf2
      have hlen3 : c.length + 2
          ≤ ((buf ++ data.take k).drop ((toHex c.length).length + 2)
            ++ (data.drop k).take k2).length := by
        simp only [List.length_append, List.length_take]
        omega
      have htake3 : ((buf ++ data.take k).drop ((toHex c.length).length + 2)
            ++ (data.drop k).take k2).take c.length = c := by
        rw [take_eq_of_append hpre3 (by omega)]
        exact List.take_left _ _
      have hdrop3 : ((buf ++ data.take k).drop ((toHex c.length).length + 2)
            ++ (data.drop k).take k2).drop (c.length + 2)
            ++ (data.drop k).drop k2 = encodeChunked tl := by
        rw [drop_append_eq_of_append hpre3 (by omega)]
        rw [show c ++ 13 :: 10 :: encodeChunked tl
            = (c ++ [13, 10]) ++ encodeChunked tl by simp [List.append_assoc]]
        rw [show c.length + 2 = (c ++ [13, 10]).length by simp]
        exact List.drop_left _ _
      have hparse : parseHex ((buf ++ data.take k).take (toHex c.length).length)
          = some c.length := by
        rw [hline]
        exact parseHex_toHex c.length
      have hcne : ¬ c.length = 0 := by
        simpa [List.length_eq_zero] using hc
      have hrec := ih f
        (((buf ++ data.take k).drop ((toHex c.length).length + 2)
          ++ (data.drop k).take k2).drop (c.length + 2))
        ((data.drop k).drop k2) sched3 (acc ++ c) htl (by simp at hfuel; omega)
        hdrop3
      simp only [readChunksGo, hfill]
      rw [hfs1]
      simp only [Option.getD_some]
      rw [hparse]
      simp only [hcne, if_false]
      rw [hfill2]
      simp only []
      rw [htake3, hrec]
      simp [joinL, List.append_assoc]

theorem clLoop_spec :
    ∀ (fuel : Nat) (data sched pre : List Nat) (idx n : Nat),
      data.length < fuel → pre.length = idx → idx ≤ n →
      clLoop fuel (pre ++ List.replicate (n - idx) 0) idx n data sched
        = pre ++ data.take (n - idx)
          ++ List.replicate (n - idx - (data.take (n - idx)).length) 0 := by
  intro fuel
  induction fuel with
  | zero => intro data sched pre idx n hf _ _; omega
  | succ f ih =>
    intro data sched pre idx n hf hpre hidxn
    by_cases hidx : idx < n
    · by_cases hd : data = []
      · subst hd
        simp [clLoop, hidx]
      · obtain ⟨m, hm1, hm2, hm3, hre⟩ :=
          rread_spec data sched (n - idx) (by omega) hd
        have hcl : (data.take m).length = m := by
          simp [List.length_take]
          omega
        have hslice : sliceAssign (pre ++ List.replicate (n - idx) 0) idx
            (data.take m)
            = (pre ++ data.take m) ++ List.replicate (n - (idx + m)) 0 := by
          unfold sliceAssign
          have ht : (pre ++ List.replicate (n - idx) 0).take idx = pre := by
            rw [← hpre]
            exact List.take_left _ _
          have hdp : (pre ++ List.replicate (n - idx) 0).drop (idx + (data.take m).length)
              = List.replicate (n - (idx + m)) 0 := by
            rw [hcl, ← List.drop_drop, ← hpre, List.drop_left]
            simp only [List.drop_replicate]
            congr 1
            omega
          rw [ht, hdp, List.append_assoc]
        have hstep : clLoop (f + 1) (pre ++ List.replicate (n - idx) 0) idx n data sched
            = clLoop f ((pre ++ data.take m) ++ List.replicate (n - (idx + m)) 0)
                (idx + (data.take m).length) n (data.drop m) (sched.drop 1) := by
          simp only [clLoop, hidx, if_true, List.isEmpty_iff, hd, if_false, hre,
            hslice]
        rw [hstep, hcl]
        have hrec := ih (data.drop m) (sched.drop 1) (pre ++ data.take m)
          (idx + m) n (by simp [List.length_drop]; omega)
          (by simp [List.length_append, hcl]; omega) (by omega)
        rw [hrec]
        have hsplit : data.take (n - idx)
            = data.take m ++ (data.drop m).take (n - (idx + m)) := by
          rw [show n - idx = m + (n - (idx + m)) by omega, List.take_add]
        rw [hsplit]
        have hlen : n - (idx + m) - ((data.drop m).take (n - (idx + m))).length
            = n - idx - (data.take m ++ (data.drop m).take (n - (idx + m))).length := by
          simp only [List.length_append, List.length_take, List.length_drop, hcl]
          omega
        rw [hlen]
        simp [List.append_assoc]
    · have hin : idx = n := by omega
      subst hin
      simp [clLoop, hidx]

theorem fbLoop_fits :
    ∀ (fuel : Nat) (data sched pre : List Nat) (idx fbs : Nat),
      data.length < fuel → pre.length = idx → idx + data.length ≤ fbs →
      fbLoop fuel (pre ++ List.replicate (fbs - idx) 0) idx fbs data sched
        = .ok (pre ++ data) := by
  intro fuel
  induction fuel with
  | zero => intro data sched pre idx fbs hf _ _; omega
  | succ f ih =>
    intro data sched pre idx fbs hf hpre htot
    by_cases hd : data = []
    · subst hd
      have ht : (pre ++ List.replicate (fbs - idx) 0).take idx = pre := by
        rw [← hpre]
        exact List.take_left _ _
      simp [fbLoop, ht]
    · obtain ⟨m, hm1, hm2, _hm3, hre⟩ := rread_spec data sched 512 (by omega) hd
      have hcl : (data.take m).length = m := by
        simp [List.length_take]
        omega
      have hnotover : ¬ fbs < idx + (data.take m).length := by
        rw [hcl]
        omega
      have hslice : sliceAssign (pre ++ List.replicate (fbs - idx) 0) idx
          (data.take m)
          = (pre ++ data.take m) ++ List.replicate (fbs - (idx + m)) 0 := by
        unfold sliceAssign
        have ht : (pre ++ List.replicate (fbs - idx) 0).take idx = pre := by
          rw [← hpre]
          exact List.take_left _ _
        have hdp : (pre ++ List.replicate (fbs - idx) 0).drop
            (idx + (data.take m).length)
            = List.replicate (fbs - (idx + m)) 0 := by
          rw [hcl, ← List.drop_drop, ← hpre, List.drop_left]
          simp only [List.drop_replicate]
          congr 1
          omega
        rw [ht, hdp, List.append_assoc]
      have hstep : fbLoop (f + 1) (pre ++ List.replicate (fbs - idx) 0) idx fbs
          data sched
          = fbLoop f ((pre ++ data.take m) ++ List.replicate (fbs - (idx + m)) 0)
              (idx + (data.take m).length) fbs (data.drop m) (sched.drop 1) := by
        simp only [fbLoop, List.isEmpty_iff, hd, if_false, hre, hnotover,
          hslice]
      rw [hstep, hcl]
      have hrec := ih (data.drop m) (sched.drop 1) (pre ++ data.take m)
        (idx + m) fbs (by simp [List.length_drop]; omega)
        (by simp [List.length_append, hcl]; omega)
        (by simp [List.length_drop]; omega)
      rw [hrec, List.append_assoc, List.take_append_drop]

theorem fbLoop_over :
    ∀ (fuel : Nat) (data sched body : List Nat) (idx fbs : Nat),
      data.length < fuel → idx ≤ fbs → fbs < idx + data.length →
      fbLoop fuel body idx fbs data sched = .error .bodyTooLarge := by
  intro fuel
  induction fuel with
  | zero => intro data sched body idx fbs hf _ _; omega
  | succ f ih =>
    intro data sched body idx fbs hf hidx hover
    have hd : data ≠ [] := by
      intro hnil
      subst hnil
      simp at hover
      omega
    obtain ⟨m, hm1, hm2, _hm3, hre⟩ := rread_spec data sched 512 (by omega) hd
    have hcl : (data.take m).length = m := by
      simp [List.length_take]
      omega
    by_cases hstop : fbs < idx + m
    · simp only [fbLoop, List.isEmpty_iff, hd, if_false, hre, hcl]
      rw [if_pos hstop]
    · have hstep : fbLoop (f + 1) body idx fbs data sched
          = fbLoop f (sliceAssign body idx (data.take m)) (idx + m) fbs
              (data.drop m) (sched.drop 1) := by
        simp only [fbLoop, List.isEmpty_iff, hd, if_false, hre, hcl]
        rw [if_neg hstop]
      rw [hstep]
      exact ih (data.drop m) (sched.drop 1) _ (idx + m) fbs
        (by simp [List.length_drop]; omega) (by omega)
        (by simp [List.length_drop]; omega)

theorem contentLengthBody_le {n : Nat} (remaining data sched : List Nat)
    (h : (remaining ++ data).length ≤ n) :
    contentLengthBody n remaining data sched
      = (remaining ++ data)
        ++ List.replicate (n - (remaining ++ data).length) 0 := by
  have hlen : remaining.length + data.length ≤ n := by
    simpa [List.length_append] using h
  by_cases hr : remaining = []
  · subst hr
    have h0 := clLoop_spec (data.length + 1) data sched [] 0 n (by omega)
      (by simp) (by omega)
    simp only [List.nil_append, Nat.sub_zero] at h0
    have htk : data.take n = data := List.take_of_length_le (by simpa using hlen)
    rw [contentLengthBody, if_pos rfl]
    rw [show (List.replicate n 0 : List Nat) = [] ++ List.replicate (n - 0) 0 by simp]
    rw [clLoop_spec (data.length + 1) data sched [] 0 n (by omega) (by simp)
      (by omega)]
    simp only [Nat.sub_zero]
    rw [htk]
    simp [List.length_append]
  · have hseed : sliceAssign (List.replicate n 0) 0 remaining
        = remaining ++ List.replicate (n - remaining.length) 0 := by
      unfold sliceAssign
      simp [List.drop_replicate]
    rw [contentLengthBody, if_neg hr, hseed]
    rw [clLoop_spec (data.length + 1) data sched remaining remaining.length n
      (by omega) rfl (by omega)]
    have htk : data.take (n - remaining.length) = data :=
      List.take_of_length_le (by omega)
    rw [htk]
    have harg : n - remaining.length - data.length
        = n - (remaining ++ data).length := by
      simp only [List.length_append]
      omega
    rw [harg]

theorem seed_slice (n : Nat) (remaining : List Nat) :
    sliceAssign (List.replicate n 0) 0 remaining
      = remaining ++ List.replicate (n - remaining.length) 0 := by
  unfold sliceAssign
  simp [List.drop_replicate]

theorem fallbackBody_fits {fbs : Nat} (remaining data sched : List Nat)
    (h : (remaining ++ data).length ≤ fbs) :
    fallbackBody fbs remaining data sched = .ok (remaining ++ data) := by
  have hlen : remaining.length + data.length ≤ fbs := by
    simpa [List.length_append] using h
  by_cases hr : remaining = []
  · subst hr
    rw [fallbackBody, if_pos rfl,
      show (List.replicate fbs 0 : List Nat)
        = [] ++ List.replicate (fbs - 0) 0 by simp]
    simpa using fbLoop_fits (data.length + 1) data sched [] 0 fbs (by omega)
      (by simp) (by omega)
  · rw [fallbackBody, if_neg hr, if_neg (by omega), seed_slice]
    exact fbLoop_fits (data.length + 1) data sched remaining remaining.length
      fbs (by omega) rfl (by omega)

theorem fallbackBody_over {fbs : Nat} (remaining data sched : List Nat)
    (h : fbs < (remaining ++ data).length) :
    fallbackBody fbs remaining data sched = .error .bodyTooLarge := by
  have hlen : fbs < remaining.length + data.length := by
    simpa [List.length_append] using h
  by_cases hr : remaining = []
  · subst hr
    rw [fallbackBody, if_pos rfl]
    exact fbLoop_over (data.length + 1) data sched _ 0 fbs (by omega)
      (by omega) (by simpa using hlen)
  · by_cases hbig : fbs < remaining.length
    · rw [fallbackBody, if_neg hr, if_pos hbig]
    · rw [fallbackBody, if_neg hr, if_neg hbig, seed_slice]
      exact fbLoop_over (data.length + 1) data sched _ remaining.length fbs
        (by omega) (by omega) (by omega)

theorem retryFrom_step_error {att : Nat → Except HErr HttpRespM} {i n : Nat}
    {e : HErr} (h : att i = .error e) (hn : n ≠ 0) :
    retryFrom att i (n + 1)
      = ((retryFrom att (i + 1) n).1, (retryFrom att (i + 1) n).2.1 + 1,
         1000 :: (retryFrom att (i + 1) n).2.2) := by
  simp [retryFrom, h, hn]

theorem retryFrom_allfail :
    ∀ (n : Nat) (i : Nat) (att : Nat → Except HErr HttpRespM) (e : HErr),
      1 ≤ n →
      (∀ j, j < n → ∃ e2, att (i + j) = .error e2) →
      att (i + (n - 1)) = .error e →
      retryFrom att i n
        = (some (syntheticResp e), n, List.replicate (n - 1) 1000) := by
  intro n
  induction n with
  | zero => intro i att e h1 _ _; omega
  | succ m ih =>
    intro i att e _ hall hlast
    cases m with
    | zero =>
      have h0 : att i = .error e := by simpa using hlast
      simp [retryFrom, h0]
    | succ m2 =>
      obtain ⟨e0, he0⟩ := hall 0 (by omega)
      simp only [Nat.add_zero] at he0
      have hrec := ih (i + 1) att e (by omega)
        (fun j hj => by
          have := hall (j + 1) (by omega)
          simpa [Nat.add_assoc, Nat.add_comm 1 j] using this)
        (by
          have : i + 1 + (m2 + 1 - 1) = i + (m2 + 1 + 1 - 1) := by omega
          rw [this]
          exact hlast)
      rw [retryFrom_step_error he0 (by omega), hrec]
      simp [List.replicate_succ]

theorem retryFrom_success :
    ∀ (k : Nat) (n i : Nat) (att : Nat → Except HErr HttpRespM)
      (resp : HttpRespM),
      k < n →
      (∀ j, j < k → ∃ e2, att (i + j) = .error e2) →
      att (i + k) = .ok resp →
      retryFrom att i n = (some resp, k + 1, List.replicate k 1000) := by
  intro k
  induction k with
  | zero =>
    intro n i att resp hk _ hok
    simp only [Nat.add_zero] at hok
    cases n with
    | zero => omega
    | succ m => simp [retryFrom, hok]
  | succ k2 ih =>
    intro n i att resp hk hfail hok
    obtain ⟨e0, he0⟩ := hfail 0 (by omega)
    simp only [Nat.add_zero] at he0
    cases n with
    | zero => omega
    | succ m =>
      have hm : m ≠ 0 := by omega
      have hrec := ih m (i + 1) att resp (by omega)
        (fun j hj => by
          have := hfail (j + 1) (by omega)
          simpa [Nat.add_assoc, Nat.add_comm 1 j] using this)
        (by
          have : i + 1 + k2 = i + (k2 + 1) := by omega
          rw [this]
          exact hok)
      rw [show m = (m - 1) + 1 by omega] at hrec ⊢
      rw [retryFrom_step_error he0 (by omega), hrec]
      simp [List.replicate_succ]

theorem retryFrom_isSome :
    ∀ (n i : Nat) (att : Nat → Except HErr HttpRespM), 1 ≤ n →
      (retryFrom att i n).1.isSome = true := by
  intro n
  induction n with
  | zero => intro i att h; omega
  | succ m ih =>
    intro i att _
    cases m with
    | zero =>
      cases hatt : att i with
      | ok r => simp [retryFrom, hatt]
      | error e => simp [retryFrom, hatt]
    | succ m2 =>
      cases hatt : att i with
      | ok r => simp [retryFrom, hatt]
      | error e =>
        have hrec := ih (i + 1) att (by omega)
        rw [retryFrom_step_error hatt (by omega)]
        simpa using hrec

theorem phlGo_eqv :
    ∀ (ls1 ls2 : List (List Nat)) (d : List (List Nat × List Nat)),
      linesKeyEqv ls1 ls2 = true → phlGo ls1 d = phlGo ls2 d := by
  intro ls1
  induction ls1 with
  | nil =>
    intro ls2 d h
    cases ls2 with
    | nil => rfl
    | cons l2 r2 => simp [linesKeyEqv] at h
  | cons l1 r1 ih =>
    intro ls2 d h
    cases ls2 with
    | nil => simp [linesKeyEqv] at h
    | cons l2 r2 =>
      rw [show linesKeyEqv (l1 :: r1) (l2 :: r2)
          = (lineKeyEqv l1 l2 && linesKeyEqv r1 r2) from rfl,
        Bool.and_eq_true] at h
      obtain ⟨hline, hrest⟩ := h
      have hstep : (if 58 ∈ l1 then
            dset d (trimB (lowerB (splitFirst 58 l1).1))
              (trimB (splitFirst 58 l1).2)
          else d)
          = (if 58 ∈ l2 then
            dset d (trimB (lowerB (splitFirst 58 l2).1))
              (trimB (splitFirst 58 l2).2)
          else d) := by
        by_cases h1 : 58 ∈ l1
        · rw [lineKeyEqv, if_pos h1] at hline
          by_cases h2 : 58 ∈ l2
          · rw [if_pos h2, Bool.and_eq_true, beq_iff_eq, beq_iff_eq] at hline
            rw [if_pos h1, if_pos h2, hline.2, show trimB (lowerB (splitFirst 58 l1).1)
              = trimB (lowerB (splitFirst 58 l2).1) from congrArg trimB hline.1]
          · rw [if_neg h2] at hline
            cases hline
        · rw [lineKeyEqv, if_neg h1, beq_iff_eq] at hline
          subst hline
          rfl
      show phlGo r1 _ = phlGo r2 _
      rw [hstep]
      exact ih r2 _ hrest

theorem connReach_card_le (maxConn : Nat) (s : Finset Nat)
    (h : ConnReach maxConn s) : s.card ≤ maxConn := by
  induction h with
  | init => simp
  | accept s2 cid _ hlt _ =>
    have := Finset.card_insert_le cid s2
    omega
  | teardown s2 cid _ ih => exact le_trans Finset.card_erase_le ih

theorem srvReadHdrs_events :
    ∀ (script : List RdEv) (d : List (List Nat × List Nat)),
      ∀ e ∈ (srvReadHdrs script d).1, e = Ev.readOp := by
  intro script
  induction script with
  | nil => intro d e he; simpa [srvReadHdrs] using he
  | cons h t ih =>
    intro d e he
    cases h with
    | timeout => simpa [srvReadHdrs] using he
    | oserr => simpa [srvReadHdrs] using he
    | bytes hl =>
      by_cases hb : hl = [] ∨ hl = [13, 10]
      · rw [srvReadHdrs, if_pos hb] at he
        simpa using he
      · rw [srvReadHdrs, if_neg hb] at he
        simp only [List.mem_cons] at he
        rcases he with rfl | he
        · rfl
        · exact ih _ e he

theorem srvReadPost_events :
    ∀ (script : List RdEv) (needed : Nat) (acc : List Nat),
      ∀ e ∈ (srvReadPost script needed acc).1, e = Ev.readOp := by
  intro script
  induction script with
  | nil =>
    intro needed acc e he
    rw [srvReadPost.eq_def] at he
    split at he
    · simp at he
    · simpa using he
  | cons h t ih =>
    intro needed acc e he
    rw [srvReadPost.eq_def] at he
    split at he
    · simp at he
    · cases h with
      | timeout => simpa using he
      | oserr => simpa using he
      | bytes c =>
        simp only [List.mem_cons] at he
        rcases he with rfl | he
        · rfl
        · exact ih _ _ e he

theorem serveStatic_events (fs : List (List Nat × List Nat)) (url : List Nat) :
    ∀ e ∈ serveStaticEvs fs url, ∃ bs, e = Ev.write bs := by
  intro e he
  unfold serveStaticEvs at he
  split at he <;>
    (simp only [] at he; split at he <;> simp only [List.mem_cons] at he)
  · rcases he with rfl | he
    · exact ⟨_, rfl⟩
    · obtain ⟨c, _, hc⟩ := List.mem_map.mp he
      exact ⟨c, hc.symm⟩
  · rcases he with rfl | he
    · exact ⟨_, rfl⟩
    · simp at he
      subst he
      exact ⟨_, rfl⟩
  · rcases he with rfl | he
    · exact ⟨_, rfl⟩
    · obtain ⟨c, _, hc⟩ := List.mem_map.mp he
      exact ⟨c, hc.symm⟩
  · rcases he with rfl | he
    · exact ⟨_, rfl⟩
    · simp at he
      subst he
      exact ⟨_, rfl⟩

theorem dispatchStage_after (cfg : SrvCfg) (req : SReq) :
    ∀ e ∈ (dispatchStage cfg req).1, evIsAfter e = false := by
  intro e he
  unfold dispatchStage at he
  split at he
  · rename_i h ms heq
    split at he
    · split at he <;> simp only [List.mem_cons, List.mem_singleton] at he <;>
        casesm* _ ∨ _ <;> subst_vars <;> simp_all [evIsAfter]
    · obtain ⟨bs, hbs⟩ := serveStatic_events cfg.fs req.url e he
      subst hbs
      rfl
  · obtain ⟨bs, hbs⟩ := serveStatic_events cfg.fs req.url e he
    subst hbs
    rfl

theorem srvTryBody_status (cfg : SrvCfg) (script : List RdEv) :
    (srvTryBody cfg script).status = 200 ∨ (srvTryBody cfg script).status = 204 := by
  rw [srvTryBody.eq_def]
  repeat' split
  all_goals try simp
  all_goals repeat' split
  all_goals simp

theorem beforeHooks_after (ts : List Nat) :
    ∀ e ∈ ts.map Ev.beforeHook, evIsAfter e = false := by
  intro e he
  obtain ⟨t, _, ht⟩ := List.mem_map.mp he
  subst ht
  rfl

theorem srvTryBody_after (cfg : SrvCfg) (script : List RdEv) :
    ∀ e ∈ (srvTryBody cfg script).events, evIsAfter e = false := by
  cases script with
  | nil =>
    intro e he
    simp only [srvTryBody, List.mem_singleton] at he
    subst he
    rfl
  | cons h0 t =>
    cases h0 with
    | timeout =>
      intro e he
      simp only [srvTryBody, List.mem_singleton] at he
      subst he
      rfl
    | oserr =>
      intro e he
      simp only [srvTryBody, List.mem_singleton] at he
      subst he
      rfl
    | bytes line =>
      intro e he
      by_cases hline : line = []
      · simp only [srvTryBody, if_pos hline, List.mem_singleton] at he
        subst he
        rfl
      · simp only [srvTryBody, if_neg hline] at he
        rcases hsw : splitWs line with _ | ⟨method, _ | ⟨fullUrl, _ | ⟨ver, _ | more⟩⟩⟩ <;>
          rw [hsw] at he
        case neg.nil =>
          simp only [List.mem_singleton] at he
          subst he
          rfl
        case neg.cons.nil =>
          simp only [List.mem_singleton] at he
          subst he
          rfl
        case neg.cons.cons.nil =>
          simp only [List.mem_singleton] at he
          subst he
          rfl
        case neg.cons.cons.cons.cons =>
          simp only [List.mem_singleton] at he
          subst he
          rfl
        case neg.cons.cons.cons.nil =>
          rcases hh : srvReadHdrs t [] with ⟨hevs, e2 | ⟨hdrs, rest2⟩⟩ <;>
            (rw [hh] at he; try simp only [] at he)
          · simp only [List.mem_cons] at he
            rcases he with rfl | he
            · rfl
            · have := srvReadHdrs_events t [] e
              rw [hh] at this
              rw [this he]
              rfl
          · rcases hpost : (if method = sb "POST" then
                match dget hdrs (sb "Content-Length") with
                | none => (([] : List Ev), Except.ok (([] : List Nat), rest2))
                | some v =>
                  match parseDec v with
                  | none =>
                    (([] : List Ev),
                     Except.error (PyExc.other (sb "invalid literal for int()")))
                  | some n => srvReadPost rest2 n []
              else (([] : List Ev), Except.ok (([] : List Nat), rest2)))
              with ⟨pevs, pe2 | ⟨body, rest3⟩⟩ <;>
              (rw [hpost] at he; try simp only [] at he)
            · have hpevs : ∀ x ∈ pevs, x = Ev.readOp := by
                intro x hx
                by_cases hm : method = sb "POST"
                · rw [if_pos hm] at hpost
                  cases hcl : dget hdrs (sb "Content-Length") with
                  | none =>
                    rw [hcl] at hpost
                    simp at hpost
                  | some v =>
                    rw [hcl] at hpost
                    try simp only [] at hpost
                    cases hpd : parseDec v with
                    | none =>
                      rw [hpd] at hpost
                      try simp only [] at hpost
                      simp only [Prod.mk.injEq] at hpost
                      rw [← hpost.1] at hx
                      simp at hx
                    | some n =>
                      rw [hpd] at hpost
                      try simp only [] at hpost
                      have := srvReadPost_events rest2 n [] x
                      rw [hpost] at this
                      exact this hx
                · rw [if_neg hm] at hpost
                  simp at hpost
              simp only [List.mem_cons, List.mem_append, or_assoc] at he
              rcases he with rfl | he | he
              · rfl
              · have := srvReadHdrs_events t [] e
                rw [hh] at this
                rw [this he]
                rfl
              · rw [hpevs e he]
                rfl
            · have hpevs : ∀ x ∈ pevs, x = Ev.readOp := by
                intro x hx
                by_cases hm : method = sb "POST"
                · rw [if_pos hm] at hpost
                  cases hcl : dget hdrs (sb "Content-Length") with
                  | none =>
                    rw [hcl] at hpost
                    try simp only [] at hpost
                    simp only [Prod.mk.injEq] at hpost
                    rw [← hpost.1] at hx
                    simp at hx
                  | some v =>
                    rw [hcl] at hpost
                    try simp only [] at hpost
                    cases hpd : parseDec v with
                    | none =>
                      rw [hpd] at hpost
                      simp at hpost
                    | some n =>
                      rw [hpd] at hpost
                      try simp only [] at hpost
                      have := srvReadPost_events rest2 n [] x
                      rw [hpost] at this
                      exact this hx
                · rw [if_neg hm] at hpost
                  try simp only [] at hpost
                  simp only [Prod.mk.injEq] at hpost
                  rw [← hpost.1] at hx
                  simp at hx
              by_cases hopt : method = sb "OPTIONS"
              · rw [if_pos hopt] at he
                simp only [List.mem_cons, List.mem_append, List.mem_singleton,
                  or_assoc] at he
                rcases he with rfl | he | he | he | rfl | he
                · rfl
                · have := srvReadHdrs_events t [] e
                  rw [hh] at this
                  rw [this he]
                  rfl
                · rw [hpevs e he]
                  rfl
                · exact beforeHooks_after cfg.beforeHooks e he
                · rfl
                · simp at he
              · rw [if_neg hopt] at he
                simp only [List.mem_cons, List.mem_append, or_assoc] at he
                rcases he with rfl | he | he | he | he
                · rfl
                · have := srvReadHdrs_events t [] e
                  rw [hh] at this
                  rw [this he]
                  rfl
                · rw [hpevs e he]
                  rfl
                · exact beforeHooks_after cfg.beforeHooks e he
                · exact dispatchStage_after cfg _ e he

theorem splitByte_ne_nil (c : Nat) (l : List Nat) : splitByte c l ≠ [] := by
  cases l with
  | nil => simp [splitByte]
  | cons a rest =>
    rw [splitByte]
    cases splitByte c rest with
    | nil => simp
    | cons h t =>
      by_cases hac : a = c
      · simp [hac]
      · simp [hac]

theorem splitByte_no_c (c : Nat) (l : List Nat) (h : c ∉ l) :
    splitByte c l = [l] := by
  induction l with
  | nil => rfl
  | cons a rest ih =>
    have ha : a ≠ c := fun hc => h (by simp [hc])
    have hr : c ∉ rest := fun hc => h (by simp [hc])
    rw [splitByte, ih hr]
    simp [ha]

theorem splitByte_append (c : Nat) (url r : List Nat) (h : c ∉ url) :
    splitByte c (url ++ c :: r) = url :: splitByte c r := by
  induction url with
  | nil =>
    rw [List.nil_append, splitByte]
    cases hs : splitByte c r with
    | nil => exact absurd hs (splitByte_ne_nil c r)
    | cons h0 t0 => simp
  | cons a rest ih =>
    have ha : a ≠ c := fun hc => h (by simp [hc])
    have hr : c ∉ rest := fun hc => h (by simp [hc])
    rw [List.cons_append, splitByte, ih hr]
    simp [ha]

theorem lastSeg_append_html (url : List Nat) (h : 46 ∉ url) :
    lastSeg 46 (url ++ sb ".html") = sb "html" := by
  have hdot : (sb ".html" : List Nat) = 46 :: sb "html" := by decide
  rw [lastSeg, hdot, splitByte_append 46 url (sb "html") h,
    splitByte_no_c 46 (sb "html") (by decide)]
  rfl

theorem afterMap_filter (ts : List Nat) (st : Nat) :
    (ts.map (fun t => Ev.afterHook t st)).filter evIsAfter
      = ts.map (fun t => Ev.afterHook t st) := by
  rw [List.filter_eq_self]
  intro e he
  obtain ⟨t, _, ht⟩ := List.mem_map.mp he
  subst ht
  rfl

theorem filter_after_nil_of (evs : List Ev)
    (h : ∀ e ∈ evs, evIsAfter e = false) : evs.filter evIsAfter = [] := by
  rw [List.filter_eq_nil_iff]
  intro e he
  simp [h e he]

theorem serverHandle_rejected (cfg : SrvCfg) (conns : Finset Nat) (cid : Nat)
    (script : List RdEv) (h : cfg.maxConn ≤ conns.card) :
    serverHandle cfg conns cid script
      = ⟨[Ev.write the503, Ev.close], conns, false, []⟩ := by
  unfold serverHandle
  rw [if_pos h]

theorem serverHandle_admitted_eq (cfg : SrvCfg) (conns : Finset Nat) (cid : Nat)
    (script : List RdEv) (h : ¬ cfg.maxConn ≤ conns.card) :
    serverHandle cfg conns cid script
      = ⟨(srvTryBody cfg script).events
          ++ (match (srvTryBody cfg script).exc with
              | none => []
              | some (PyExc.httpErr code msg) =>
                cfg.errorHooks.map (fun t => Ev.errorHook t code)
                ++ [Ev.write (sendHeadersBytes code (sb "text/html") false),
                    Ev.write (sb "<h1>" ++ msg ++ sb "</h1>")]
              | some PyExc.osErr => []
              | some PyExc.timeoutErr => []
              | some (PyExc.other _) =>
                cfg.errorHooks.map (fun t => Ev.errorHook t 500)
                ++ [Ev.write (sendHeadersBytes 500 (sb "text/html") false),
                    Ev.write (sb "<h1>500 Internal Server Error</h1>")])
          ++ cfg.afterHooks.map
              (fun t => Ev.afterHook t (srvTryBody cfg script).status)
          ++ [.close],
         (insert cid conns).erase cid, true, (srvTryBody cfg script).bodyRead⟩ := by
  unfold serverHandle
  rw [if_neg h]

theorem excEvs_after (cfg : SrvCfg) (exc : Option PyExc) :
    ∀ e ∈ (match exc with
      | none => ([] : List Ev)
      | some (PyExc.httpErr code msg) =>
        cfg.errorHooks.map (fun t => Ev.errorHook t code)
        ++ [Ev.write (sendHeadersBytes code (sb "text/html") false),
            Ev.write (sb "<h1>" ++ msg ++ sb "</h1>")]
      | some PyExc.osErr => []
      | some PyExc.timeoutErr => []
      | some (PyExc.other _) =>
        cfg.errorHooks.map (fun t => Ev.errorHook t 500)
        ++ [Ev.write (sendHeadersBytes 500 (sb "text/html") false),
            Ev.write (sb "<h1>500 Internal Server Error</h1>")]),
      evIsAfter e = false := by
  intro e he
  cases exc with
  | none => simp at he
  | some pe =>
    cases pe with
    | httpErr code msg =>
      simp only [List.mem_append, List.mem_cons, List.mem_singleton,
        or_assoc, List.not_mem_nil, or_false] at he
      rcases he with he | rfl | rfl
      · obtain ⟨t, _, ht⟩ := List.mem_map.mp he
        subst ht
        rfl
      · rfl
      · rfl
    | osErr => simp at he
    | timeoutErr => simp at he
    | other m =>
      simp only [List.mem_append, List.mem_cons, List.mem_singleton,
        or_assoc, List.not_mem_nil, or_false] at he
      rcases he with he | rfl | rfl
      · obtain ⟨t, _, ht⟩ := List.mem_map.mp he
        subst ht
        rfl
      · rfl
      · rfl

theorem chunks_length_le (chunks : List (List Nat)) :
    chunks.length ≤ (encodeChunked chunks).length := by
  induction chunks with
  | nil => simp [encodeChunked, joinL]
  | cons c tl ih =>
    rw [encodeChunked_cons]
    have h1 : 1 ≤ (encodeChunk c).length := by
      simp [encodeChunk]
      omega
    simp only [List.length_append, List.length_cons]
    omega

/-- C1: for every url and every `retries ≥ 1`, `http_client` never raises to its
caller: when some attempt succeeds (after `k` failed attempts) it returns that
attempt's response, having made `k + 1` attempts with a fixed 1000 ms backoff
sleep after each failure; when all `retries` attempts fail it returns the
synthetic status-500 response whose body is the last error's message, having
made exactly `retries` attempts with `retries - 1` backoff sleeps of 1000 ms. -/
theorem c1_http_client_retry (url : List Nat)
    (att : Nat → Except HErr HttpRespM) (retries : Nat) (hr : 1 ≤ retries) :
    (http_client url att retries).1.isSome = true
    ∧ (∀ k resp, k < retries → (∀ j, j < k → ∃ e, att j = .error e) →
        att k = .ok resp →
        http_client url att retries = (some resp, k + 1, List.replicate k 1000))
    ∧ (∀ e, (∀ j, j < retries → ∃ e2, att j = .error e2) →
        att (retries - 1) = .error e →
        http_client url att retries
          = (some (syntheticResp e), retries,
             List.replicate (retries - 1) 1000)) := by
  refine ⟨retryFrom_isSome retries 0 att hr, ?_, ?_⟩
  · intro k resp hk hfail hok
    show retryFrom att 0 retries = _
    exact retryFrom_success k retries 0 att resp hk
      (fun j hj => by simpa using hfail j hj) (by simpa using hok)
  · intro e hall hlast
    show retryFrom att 0 retries = _
    exact retryFrom_allfail retries 0 att e hr
      (fun j hj => by simpa using hall j hj) (by simpa using hlast)

theorem c1_http_client_retry_witness :
    1 ≤ 3
    ∧ http_client (sb "http://example.com/x")
        (fun _ => Except.error (HErr.net "connection reset")) 3
      = (some (syntheticResp (HErr.net "connection reset")), 3,
         List.replicate 2 1000) :=
  ⟨by decide,
   (c1_http_client_retry (sb "http://example.com/x")
       (fun _ => Except.error (HErr.net "connection reset")) 3 (by decide)).2.2
     (HErr.net "connection reset")
     (fun j _ => ⟨HErr.net "connection reset", rfl⟩) rfl⟩

/-- C2: at every reachable state of the server the admitted-connection set has at
most `max_connections` elements, and reachability is preserved by a full
`handle` call; a connection arriving while the set is full is written the 503
payload and closed, with no read performed and without ever entering the set;
an admitted connection's identifier is removed from the set at teardown. -/
theorem c2_admission (cfg : SrvCfg) (cid : Nat) (script : List RdEv)
    (conns : Finset Nat) (hreach : ConnReach cfg.maxConn conns) :
    conns.card ≤ cfg.maxConn
    ∧ ConnReach cfg.maxConn ((serverHandle cfg conns cid script).connsAfter)
    ∧ (cfg.maxConn ≤ conns.card →
        serverHandle cfg conns cid script
          = ⟨[Ev.write the503, Ev.close], conns, false, []⟩)
    ∧ (conns.card < cfg.maxConn →
        (serverHandle cfg conns cid script).admitted = true
        ∧ (serverHandle cfg conns cid script).connsAfter
            = (insert cid conns).erase cid) := by
  refine ⟨connReach_card_le cfg.maxConn conns hreach, ?_, ?_, ?_⟩
  · by_cases hcap : cfg.maxConn ≤ conns.card
    · rw [serverHandle_rejected cfg conns cid script hcap]
      exact hreach
    · rw [serverHandle_admitted_eq cfg conns cid script hcap]
      exact ConnReach.teardown _ cid
        (ConnReach.accept conns cid hreach (by omega))
  · intro hcap
    exact serverHandle_rejected cfg conns cid script hcap
  · intro hlt
    rw [serverHandle_admitted_eq cfg conns cid script (not_le.mpr hlt)]
    exact ⟨rfl, rfl⟩

theorem c2_admission_witness :
    ((insert 5 ∅ : Finset Nat).card ≤ 2)
    ∧ (serverHandle ⟨2, [], [], [], [], [], fun _ => false⟩ (insert 5 ∅) 9
        []).admitted = true :=
  ⟨(c2_admission ⟨2, [], [], [], [], [], fun _ => false⟩ 9 [] (insert 5 ∅)
      (ConnReach.accept ∅ 5 ConnReach.init (by decide))).1,
   ((c2_admission ⟨2, [], [], [], [], [], fun _ => false⟩ 9 [] (insert 5 ∅)
      (ConnReach.accept ∅ 5 ConnReach.init (by decide))).2.2.2 (by decide)).1⟩

/-- C3 (amended): header keys are matched case-insensitively in the client:
two header-line lists that differ only in the letter case of header names parse
to identical header maps and select the same body-decoding strategy; in
particular `Content-Length`, `content-length` and `CONTENT-LENGTH` all select
the content-length strategy.  The server, by contrast, stores header keys
verbatim and looks `Content-Length` up case-sensitively, so case variants of
that header make it read different numbers of POST body bytes (see the
counterexample). -/
theorem c3_client_case_insensitive (ls1 ls2 : List (List Nat))
    (fbs : Option Nat) (h : linesKeyEqv ls1 ls2 = true) :
    parseHeaderLines ls1 = parseHeaderLines ls2
    ∧ selectStrategy (parseHeaderLines ls1) fbs
        = selectStrategy (parseHeaderLines ls2) fbs
    ∧ selectStrategy (parseHeaderLines [sb "Content-Length: 5"]) none
        = Strat.contentLength
    ∧ selectStrategy (parseHeaderLines [sb "content-length: 5"]) none
        = Strat.contentLength
    ∧ selectStrategy (parseHeaderLines [sb "CONTENT-LENGTH: 5"]) none
        = Strat.contentLength := by
  have hp : parseHeaderLines ls1 = parseHeaderLines ls2 := phlGo_eqv ls1 ls2 [] h
  exact ⟨hp, by rw [hp], by decide, by decide, by decide⟩

theorem c3_client_case_insensitive_witness :
    linesKeyEqv [sb "Transfer-Encoding: chunked"] [sb "TRANSFER-ENCODING: chunked"] = true
    ∧ selectStrategy (parseHeaderLines [sb "Transfer-Encoding: chunked"]) none
      = selectStrategy (parseHeaderLines [sb "TRANSFER-ENCODING: chunked"]) none :=
  ⟨by decide,
   (c3_client_case_insensitive [sb "Transfer-Encoding: chunked"]
      [sb "TRANSFER-ENCODING: chunked"] none (by decide)).2.1⟩

theorem c3_counterexample :
    (serverHandle ⟨10, [], [], [], [], [], fun _ => false⟩ ∅ 1
        [RdEv.bytes (sb "POST /x HTTP/1.1\r\n"),
         RdEv.bytes (sb "Content-Length: 5\r\n"), RdEv.bytes [13, 10],
         RdEv.bytes (sb "hello")]).bodyRead = sb "hello"
    ∧ (serverHandle ⟨10, [], [], [], [], [], fun _ => false⟩ ∅ 1
        [RdEv.bytes (sb "POST /x HTTP/1.1\r\n"),
         RdEv.bytes (sb "content-length: 5\r\n"), RdEv.bytes [13, 10],
         RdEv.bytes (sb "hello")]).bodyRead = [] :=
  ⟨by decide, by decide⟩

/-- C4: chunked transfer decoding inverts encoding: for every body presented as
a list of non-empty chunks, decoding the encoded stream (hex-size line, CRLF,
payload, CRLF, repeated, ended by a zero-size chunk) returns the original body
bytes, for every split of the stream between the bytes already read past the
header delimiter and arbitrary later partial reads, and for every read
schedule; the decoder never consults `Content-Length` (it takes none).  In
particular the stream `"5\r\nhello\r\n0\r\n\r\n"` decodes to `"hello"`. -/
theorem c4_chunked_roundtrip :
    (∀ (chunks : List (List Nat)) (remaining data sched : List Nat),
      (∀ c ∈ chunks, c ≠ []) →
      remaining ++ data = encodeChunked chunks →
      chunkedBody remaining data sched = .ok (joinL chunks))
    ∧ chunkedBody (sb "5\r\nhello\r\n0\r\n\r\n") [] [] = .ok (sb "hello") := by
  constructor
  · intro chunks remaining data sched hne hT
    have hfuel : chunks.length < remaining.length + data.length + 2 := by
      have h1 := chunks_length_le chunks
      have h2 : remaining.length + data.length = (encodeChunked chunks).length := by
        have h3 := congrArg List.length hT
        simpa [List.length_append] using h3
      omega
    unfold chunkedBody
    rw [readChunksGo_spec chunks _ remaining data sched [] hne hfuel hT]
    simp
  · rfl

theorem c4_chunked_roundtrip_witness :
    (∀ c ∈ [sb "hello"], c ≠ [])
    ∧ sb "5\r\n" ++ (sb "hello\r\n0\r\n\r\n") = encodeChunked [sb "hello"]
    ∧ chunkedBody (sb "5\r\n") (sb "hello\r\n0\r\n\r\n") [2, 3, 1]
      = .ok (joinL [sb "hello"]) :=
  ⟨by decide, by decide,
   c4_chunked_roundtrip.1 [sb "hello"] (sb "5\r\n") (sb "hello\r\n0\r\n\r\n")
     [2, 3, 1] (by decide) (by decide)⟩

/-- C5 (amended): for a response carrying `Content-Length: N` (not chunked)
whose stream delivers at least `N` body bytes, split into arbitrarily small
partial reads, and where at most `N` of them were already read past the
`\r\n\r\n` header delimiter (the seed), the client returns a body of exactly
`N` bytes equal to the first `N` body bytes of the stream, correctly seeded
from the bytes past the delimiter: the read at line 129 is capped at the
missing byte count, so extra bytes left in the stream are never consumed.
Only the over-long-seed case of the original claim fails: when more than `N`
bytes land past the delimiter during header reading, the seed assignment
grows the buffer and the client returns all of them (see the
counterexample). -/
theorem c5_content_length_first_n (n : Nat) (remaining data sched : List Nat)
    (hseed : remaining.length ≤ n)
    (hge : n ≤ (remaining ++ data).length) :
    contentLengthBody n remaining data sched = (remaining ++ data).take n
    ∧ (contentLengthBody n remaining data sched).length = n := by
  by_cases hr : remaining = []
  · subst hr
    simp only [List.nil_append] at hge ⊢
    rw [contentLengthBody, if_pos rfl,
      show (List.replicate n 0 : List Nat) = [] ++ List.replicate (n - 0) 0 by
        simp,
      clLoop_spec (data.length + 1) data sched [] 0 n (by omega) (by simp)
        (by omega)]
    have htklen : (data.take n).length = n := by
      simp only [List.length_take]
      omega
    simp only [Nat.sub_zero]
    rw [htklen, Nat.sub_self]
    simp [htklen]
  · rw [contentLengthBody, if_neg hr, seed_slice,
      clLoop_spec (data.length + 1) data sched remaining remaining.length n
        (by omega) rfl hseed]
    have hdlen : n - remaining.length ≤ data.length := by
      simp only [List.length_append] at hge
      omega
    have htklen : (data.take (n - remaining.length)).length
        = n - remaining.length := by
      simp only [List.length_take]
      omega
    rw [htklen, Nat.sub_self]
    simp only [List.replicate_zero, List.append_nil]
    constructor
    · rw [List.take_append_eq_append_take, List.take_of_length_le hseed]
    · simp only [List.length_append, htklen]
      omega

theorem c5_content_length_first_n_witness :
    ((sb "ab").length ≤ 4)
    ∧ (4 ≤ (sb "ab" ++ sb "cdef").length)
    ∧ contentLengthBody 4 (sb "ab") (sb "cdef") [1, 2, 5]
      = (sb "ab" ++ sb "cdef").take 4 :=
  ⟨by decide, by decide,
   (c5_content_length_first_n 4 (sb "ab") (sb "cdef") [1, 2, 5] (by decide)
      (by decide)).1⟩

theorem c5_counterexample :
    singleRequest (sb "HTTP/1.1 200 OK\r\nContent-Length: 1\r\n\r\nabc") [] none
      = .ok ⟨200, some [(sb "content-length", sb "1")], sb "abc"⟩
    ∧ (sb "abc").length = 3 :=
  ⟨by rfl, by decide⟩

/-- C6: bounded-fallback strategy: with a caller-supplied
`fallback_buffer_size` (truthy, hence ≥ 1) and neither chunked nor
content-length framing, the client returns the full body whenever its total
size — the bytes already read past the header delimiter plus the rest of the
stream — fits the bound, and fails the attempt with the Body-too-large error
whenever the accumulated body would exceed it; it never returns a silently
truncated body. -/
theorem c6_fallback_bound (fbs : Nat) (remaining data sched : List Nat)
    (_hf : 1 ≤ fbs) :
    ((remaining ++ data).length ≤ fbs →
      fallbackBody fbs remaining data sched = .ok (remaining ++ data))
    ∧ (fbs < (remaining ++ data).length →
      fallbackBody fbs remaining data sched = .error .bodyTooLarge) :=
  ⟨fun h => fallbackBody_fits remaining data sched h,
   fun h => fallbackBody_over remaining data sched h⟩

theorem c6_fallback_bound_witness :
    (1 ≤ 4)
    ∧ fallbackBody 4 (sb "he") (sb "llo") [2] = .error .bodyTooLarge
    ∧ fallbackBody 8 (sb "he") (sb "llo") [2] = .ok (sb "he" ++ sb "llo") :=
  ⟨by decide,
   (c6_fallback_bound 4 (sb "he") (sb "llo") [2] (by decide)).2 (by decide),
   (c6_fallback_bound 8 (sb "he") (sb "llo") [2] (by decide)).1 (by decide)⟩

/-- C7 (amended): for every admitted connection, on every exit path of request
handling, each registered after-hook is invoked exactly once, in registration
order, and receives the `status_code` local — which is 204 when an OPTIONS
request completed and 200 on every other path, including those where a 404 or
500 error response was written (the error branches never update the local, so
after-hooks do not receive the status that was actually written — see the
counterexample); afterwards the transport close is the final trace event, and
the admission slot is released. -/
theorem c7_after_hooks (cfg : SrvCfg) (conns : Finset Nat) (cid : Nat)
    (script : List RdEv) (h : conns.card < cfg.maxConn) :
    ((srvTryBody cfg script).status = 200 ∨ (srvTryBody cfg script).status = 204)
    ∧ (serverHandle cfg conns cid script).events.filter evIsAfter
        = cfg.afterHooks.map
            (fun t => Ev.afterHook t (srvTryBody cfg script).status)
    ∧ (serverHandle cfg conns cid script).events.getLast? = some Ev.close
    ∧ (serverHandle cfg conns cid script).connsAfter
        = (insert cid conns).erase cid := by
  have hev : (serverHandle cfg conns cid script).events
      = (srvTryBody cfg script).events
        ++ (match (srvTryBody cfg script).exc with
            | none => []
            | some (PyExc.httpErr code msg) =>
              cfg.errorHooks.map (fun t => Ev.errorHook t code)
              ++ [Ev.write (sendHeadersBytes code (sb "text/html") false),
                  Ev.write (sb "<h1>" ++ msg ++ sb "</h1>")]
            | some PyExc.osErr => []
            | some PyExc.timeoutErr => []
            | some (PyExc.other _) =>
              cfg.errorHooks.map (fun t => Ev.errorHook t 500)
              ++ [Ev.write (sendHeadersBytes 500 (sb "text/html") false),
                  Ev.write (sb "<h1>500 Internal Server Error</h1>")])
        ++ cfg.afterHooks.map
            (fun t => Ev.afterHook t (srvTryBody cfg script).status)
        ++ [Ev.close] := by
    rw [serverHandle_admitted_eq cfg conns cid script (not_le.mpr h)]
  have hconn : (serverHandle cfg conns cid script).connsAfter
      = (insert cid conns).erase cid := by
    rw [serverHandle_admitted_eq cfg conns cid script (not_le.mpr h)]
  refine ⟨srvTryBody_status cfg script, ?_, ?_, hconn⟩
  · rw [hev]
    simp only [List.filter_append]
    rw [filter_after_nil_of _ (srvTryBody_after cfg script),
      filter_after_nil_of _ (excEvs_after cfg (srvTryBody cfg script).exc),
      afterMap_filter]
    simp [evIsAfter]
  · rw [hev]
    exact List.getLast?_concat _

theorem c7_after_hooks_witness :
    ((∅ : Finset Nat).card < 1)
    ∧ (serverHandle ⟨1, [], [], [5], [], [], fun _ => false⟩ ∅ 2
        [RdEv.bytes (sb "GET / HTTP/1.1\r\n"),
         RdEv.bytes [13, 10]]).events.filter evIsAfter
      = [5].map (fun t => Ev.afterHook t
          (srvTryBody ⟨1, [], [], [5], [], [], fun _ => false⟩
            [RdEv.bytes (sb "GET / HTTP/1.1\r\n"), RdEv.bytes [13, 10]]).status) :=
  ⟨by decide,
   (c7_after_hooks ⟨1, [], [], [5], [], [], fun _ => false⟩ ∅ 2
      [RdEv.bytes (sb "GET / HTTP/1.1\r\n"), RdEv.bytes [13, 10]]
      (by decide)).2.1⟩

theorem c7_counterexample :
    (serverHandle
        ⟨1, [(sb "/e", (fun _ => HRes.raiseHttp 404 (sb "File Not Found"),
            [sb "GET"]))], [], [7], [], [], fun _ => false⟩ ∅ 3
        [RdEv.bytes (sb "GET /e HTTP/1.1\r\n"),
         RdEv.bytes [13, 10]]).events.filter evIsAfter
      = [Ev.afterHook 7 200]
    ∧ (writtenOf (serverHandle
        ⟨1, [(sb "/e", (fun _ => HRes.raiseHttp 404 (sb "File Not Found"),
            [sb "GET"]))], [], [7], [], [], fun _ => false⟩ ∅ 3
        [RdEv.bytes (sb "GET /e HTTP/1.1\r\n"),
         RdEv.bytes [13, 10]]).events).take 12 = sb "HTTP/1.1 404"
    ∧ (200 : Nat) ≠ 404 :=
  ⟨by decide, by decide, by decide⟩

set_option maxRecDepth 8192

/-- C8 (amended): the static responder appends the default extension `.html`
when the whole URL contains no dot (not merely its last segment), resolves the
result under the fixed root `./html`, picks the content type by the extension
after the URL's last dot from the fixed table (with octet-stream default), and
yields 404 for absent files; for a dotless URL the extension is `.html`, so a
found file is served 200 `text/html` with the one-year cache header.  `GET /`
therefore resolves to the file literally named `.html` and never to
`index.html`: with `./html/.html` present it answers 200 `text/html` with the
cache header, while a root containing only `index.html` answers 404 (see the
counterexample). -/
theorem c8_static_responder (fs : List (List Nat × List Nat))
    (url content : List Nat) (hd : 46 ∉ url) :
    (dget fs (staticPath (url ++ sb ".html")) = some content →
      serveStaticEvs fs url
        = Ev.write (sendHeadersBytes 200 (sb "text/html") true)
          :: fileChunkWrites content)
    ∧ (dget fs (staticPath (url ++ sb ".html")) = none →
      serveStaticEvs fs url
        = [Ev.write (sendHeadersBytes 404 (sb "text/html") false),
           Ev.write (sb "<h1>404 Not Found</h1>")])
    ∧ (serverHandle
        ⟨10, [], [], [], [], [(sb "./html/.html", sb "<p>hi</p>")],
         fun _ => false⟩ ∅ 1
        [RdEv.bytes (sb "GET / HTTP/1.1\r\n"), RdEv.bytes [13, 10]]).events
      = [Ev.readOp, Ev.readOp,
         Ev.write (sendHeadersBytes 200 (sb "text/html") true),
         Ev.write (sb "<p>hi</p>"), Ev.close] := by
  have hct : dget mimeTable (46 :: lastSeg 46 (url ++ sb ".html"))
      = some (sb "text/html") := by
    rw [lastSeg_append_html url hd]
    decide
  refine ⟨?_, ?_, by decide⟩
  · intro hfs
    simp only [serveStaticEvs]
    rw [if_neg hd, hfs, hct]
    rfl
  · intro hfs
    simp only [serveStaticEvs]
    rw [if_neg hd, hfs]

theorem c8_static_responder_witness :
    (46 ∉ sb "/")
    ∧ dget [(sb "./html/.html", sb "ok")] (staticPath (sb "/" ++ sb ".html"))
      = some (sb "ok")
    ∧ serveStaticEvs [(sb "./html/.html", sb "ok")] (sb "/")
      = Ev.write (sendHeadersBytes 200 (sb "text/html") true)
        :: fileChunkWrites (sb "ok") :=
  ⟨by decide, by decide,
   (c8_static_responder [(sb "./html/.html", sb "ok")] (sb "/") (sb "ok")
      (by decide)).1 (by decide)⟩

theorem c8_counterexample :
    (serverHandle
        ⟨10, [], [], [], [], [(sb "./html/index.html", sb "<h1>Hi</h1>")],
         fun _ => false⟩ ∅ 1
        [RdEv.bytes (sb "GET / HTTP/1.1\r\n"), RdEv.bytes [13, 10]]).events
      = [Ev.readOp, Ev.readOp,
         Ev.write (sendHeadersBytes 404 (sb "text/html") false),
         Ev.write (sb "<h1>404 Not Found</h1>"), Ev.close]
    ∧ serveStaticEvs [(sb "./html/v1.2/data.html", sb "X")] (sb "/v1.2/data")
      = [Ev.write (sendHeadersBytes 404 (sb "text/html") false),
         Ev.write (sb "<h1>404 Not Found</h1>")] :=
  ⟨by decide, by decide⟩

/-- C9: when a response declares `Content-Length: N` but the stream past the
header delimiter ends after only k < N body bytes (counting both the bytes
already read past the delimiter and all later partial reads), the client
raises no error and returns a body of exactly N bytes: the k received bytes
followed by N - k zero (NUL) bytes — zero-padded to the declared length, not
shortened. -/
theorem c9_truncated_zero_padded (n : Nat) (remaining data sched : List Nat)
    (h : (remaining ++ data).length < n) :
    contentLengthBody n remaining data sched
      = (remaining ++ data)
        ++ List.replicate (n - (remaining ++ data).length) 0
    ∧ (contentLengthBody n remaining data sched).length = n := by
  have h1 := contentLengthBody_le remaining data sched (le_of_lt h)
  refine ⟨h1, ?_⟩
  rw [h1]
  simp only [List.length_append, List.length_replicate] at h ⊢
  omega

theorem c9_truncated_zero_padded_witness :
    ((sb "hi" ++ sb "!").length < 5)
    ∧ contentLengthBody 5 (sb "hi") (sb "!") [1]
      = (sb "hi" ++ sb "!") ++ List.replicate 2 0 :=
  ⟨by decide,
   (c9_truncated_zero_padded 5 (sb "hi") (sb "!") [1] (by decide)).1⟩

/-- C10: when the request path has an exact entry in the route table but the
request method is not in that route's allowed-methods list, dispatch runs no
handler and never consults the wildcard `*` route (whatever wildcard entry the
table holds): the request is handed to the static responder, whose result —
typically a 404 — becomes the response. -/
theorem c10_method_mismatch (cfg : SrvCfg) (req : SReq) (h0 : SReq → HRes)
    (ms : List (List Nat))
    (hroute : dget cfg.routes req.url = some (h0, ms))
    (hm : req.method ∉ ms) :
    dispatchStage cfg req = (serveStaticEvs cfg.fs req.url, none)
    ∧ ∀ e ∈ (dispatchStage cfg req).1, evIsHandler e = false := by
  have heq : dispatchStage cfg req = (serveStaticEvs cfg.fs req.url, none) := by
    unfold dispatchStage
    rw [hroute]
    simp [hm]
  refine ⟨heq, ?_⟩
  rw [heq]
  intro e he
  obtain ⟨bs, hbs⟩ := serveStatic_events cfg.fs req.url e he
  subst hbs
  rfl

theorem c10_method_mismatch_witness :
    (sb "GET" ∉ [sb "POST"])
    ∧ dispatchStage
        ⟨10, [(sb "/a", (fun _ => HRes.textV (sb "r"), [sb "POST"])),
          (sb "*", (fun _ => HRes.textV (sb "w"), [sb "GET"]))],
         [], [], [], [], fun _ => false⟩
        ⟨sb "GET", sb "/a", [], [], none⟩
      = (serveStaticEvs [] (sb "/a"), none) :=
  ⟨by decide,
   (c10_method_mismatch
      ⟨10, [(sb "/a", (fun _ => HRes.textV (sb "r"), [sb "POST"])),
        (sb "*", (fun _ => HRes.textV (sb "w"), [sb "GET"]))],
       [], [], [], [], fun _ => false⟩
      ⟨sb "GET", sb "/a", [], [], none⟩
      (fun _ => HRes.textV (sb "r")) [sb "POST"] rfl (by decide)).1⟩
